import Mathlib

/-!
Verification of the lithium containers (src/radix_tree.h, src/hashmap.h).

This file gives a shallow embedding of the radix tree of `src/radix_tree.h`
and the hash map of `src/hashmap.h`, and settles the claims C1..C10 about
them.

Modelling conventions:
* `index_t` (the key type) is a 64-bit unsigned integer in the build this
  header is part of.  Keys are modelled as `Nat`; theorems that quantify over
  keys carry the hypothesis `key < 2 ^ 64` ("representable in the configured
  integer width").  The `max_index` table is computed with the `% 2 ^ 64`
  wrap-around of the C computation, which matters at height 10 where the
  C shift overflows by design.
* The `u16 size` occupancy counters and the `size_t _size` counter are
  modelled as `Nat`; no claim exercises a 2^16 or 2^64 counter wrap, and the
  relevant occupancy values stay below 65 on every input appearing in a
  claim.
* `list.h`, `iterator.h`, `lithium.h` and `hash.h` are not part of the
  source under verification; the intrusive order list, the iterators and the
  hash function are modelled from the specification (see the definitions
  marked "Modelled from the spec").  The order list is represented as the
  Lean list of the key/value pairs of the live data nodes, in list order
  from `begin()` to `end()`; an iterator is identified by the data node it
  points at.
* The bottom-up pointer surgery of `erase(iterator)`/`shrink` (which walks
  `parent`/`offset` back-pointers) is embedded as a top-down recursion along
  the erased key's digit path; under well-formedness the data node's
  `parent`/`offset` chain is exactly that path.
-/

namespace li

/-- Branch factor is 2^6, as in the source (`RT_BRANCH_FACTOR_BIT`). -/
def RT_BRANCH_FACTOR_BIT : Nat := 6

/-- `RT_BRANCH_FACTOR = 1 << RT_BRANCH_FACTOR_BIT`. -/
def RT_BRANCH_FACTOR : Nat := 64

/-- `RT_BRANCH_INDEX_MASK = RT_BRANCH_FACTOR - 1`. -/
def RT_BRANCH_INDEX_MASK : Nat := 63

/-- A node of the radix tree.  `data key val` is a `data_node` (its
`value` pair); `branch height size slots` is a `radix_node` with its stored
`height`, its stored occupancy counter `size`, and its 64 `slots` (indices
`0..63`; the function is `none` outside that range in every reachable
state).  The `parent` and `offset` back-pointers are not represented: the
position of a node in the tree determines them. -/
inductive RNode (α : Type) where
  | data (key : Nat) (val : α)
  | branch (height : Nat) (size : Nat) (slots : Nat → Option (RNode α))

namespace RNode

/-- Stored `height` field (only ever read on the root in the source). -/
def heightOf {α : Type} : RNode α → Nat
  | data _ _ => 0
  | branch h _ _ => h

/-- Stored `size` (occupancy) field of a branch node. -/
def storedSize {α : Type} : RNode α → Nat
  | data _ _ => 0
  | branch _ s _ => s

/-- Whether this node is a branch (`radix_node`) rather than a `data_node`. -/
def isBranch {α : Type} : RNode α → Bool
  | data _ _ => false
  | branch _ _ _ => true

end RNode

/-- The all-empty slot array of a freshly constructed `radix_node`. -/
def emptySlots {α : Type} : Nat → Option (RNode α) := fun _ => none

/-- `max_index[h]`, as computed by `__ctor` in 64-bit arithmetic:
`max_index[h] = (1 << (6*(h+1))) - 1` with `u64` wrap-around. -/
def max_index (h : Nat) : Nat := (2 ^ (RT_BRANCH_FACTOR_BIT * (h + 1)) - 1) % 2 ^ 64

/-- The slot index consumed at level `h` of the descent:
`(key >> (6*h)) & RT_BRANCH_INDEX_MASK`. -/
def digit (key : Nat) (h : Nat) : Nat :=
  (key >>> (RT_BRANCH_FACTOR_BIT * h)) &&& RT_BRANCH_INDEX_MASK

/-- `extend()`: a new root one level taller whose slot 0 is the old root. -/
def rt_extend {α : Type} (root : RNode α) : RNode α :=
  RNode.branch (root.heightOf + 1) 1 (Function.update emptySlots 0 (some root))

/-- The `while (key > max_index[rt_root->height]) rt_root = extend ();` loop
of `insert`.  The fuel argument only makes the recursion structural: for any
`key < 2 ^ 64` the loop stops at height 10 at the latest, far below the fuel
of 64 used at the call site. -/
def growRoot {α : Type} : Nat → RNode α → Nat → RNode α
  | 0, root, _ => root
  | fuel + 1, root, key =>
    if max_index root.heightOf < key then growRoot fuel (rt_extend root) key else root

/-- The iterator returned by `insert` (`retval.first`).  When the key was
fresh it points at the new data node's order-list link; when the key
pre-existed the source builds it from the *uninitialized* local variable
`node` (`retval.first = iterator (&node->head)` is only preceded by an
assignment to `node` inside the `if (retval.second)` block). -/
inductive InsIter where
  | node (key : Nat)
  | uninit
deriving DecidableEq

/-- The descent loop of `insert` plus the final-slot step, at fuel `h` =
the current height.  Returns the updated node and `retval.second`
(whether a fresh data node was created).  At each level the slot index is
`digit key h`; an empty slot gets a fresh branch node of height `h - 1`
(and the parent's occupancy is incremented); at height 0 an empty final
slot receives the new data node, an occupied one causes no change. -/
def insertNode {α : Type} : RNode α → Nat → α → Nat → RNode α × Bool
  | n, key, val, 0 =>
    match n with
    | RNode.data _ _ => (n, false)
    | RNode.branch hh s slots =>
      match slots (digit key 0) with
      | some _ => (n, false)
      | none =>
        (RNode.branch hh (s + 1)
          (Function.update slots (digit key 0) (some (RNode.data key val))), true)
  | n, key, val, h + 1 =>
    match n with
    | RNode.data _ _ => (n, false)
    | RNode.branch hh s slots =>
      match slots (digit key (h + 1)) with
      | some c =>
        let r := insertNode c key val h
        (RNode.branch hh s (Function.update slots (digit key (h + 1)) (some r.1)), r.2)
      | none =>
        let r := insertNode (RNode.branch h 0 emptySlots) key val h
        (RNode.branch hh (s + 1)
          (Function.update slots (digit key (h + 1)) (some r.1)), r.2)

/-- The radix tree: root branch node, the global order list, and the
live-entry counter `_size`.  Modelled from the spec: `head` is the order
list threading all live data nodes from `begin()` to `end()`; a data node is
appended at the `end()` side on insertion. -/
structure radix_tree (α : Type) where
  rt_root : RNode α
  head : List (Nat × α)
  _size : Nat

/-- A default-constructed tree: root of height 0, no entries. -/
def rt_empty {α : Type} : radix_tree α :=
  ⟨RNode.branch 0 0 emptySlots, [], 0⟩

/-- `insert (key, val)`: grow the root while the key is out of range, then
descend and insert.  Returns the tree together with `pair<iterator,bool>`. -/
def rt_insert {α : Type} (t : radix_tree α) (key : Nat) (val : α) :
    radix_tree α × InsIter × Bool :=
  let root := growRoot 64 t.rt_root key
  let r := insertNode root key val root.heightOf
  if r.2 then
    (⟨r.1, t.head ++ [(key, val)], t._size + 1⟩, InsIter.node key, true)
  else
    (⟨r.1, t.head, t._size⟩, InsIter.uninit, false)

/-- The `list_head *` returned by `__find`, classified.  `endIt` is
`&head` (compares equal to `end()`); `nullDeref` is `&node->head` computed
from `node == NULL` after the final-level slot was empty (a non-null garbage
pointer that does *not* compare equal to `end()`); `confused` marks the
impossible case of a branch node sitting in a height-0 slot (the C code
would reinterpret its bytes); `found key val` is `&node->head` of the data
node holding `(key, val)`. -/
inductive FindRes (α : Type) where
  | endIt
  | nullDeref
  | confused
  | found (key : Nat) (val : α)
deriving DecidableEq

/-- The descent loop of `__find` plus the final-level load, at fuel `h`.
An empty slot at a positive height short-circuits to `endIt`; the final
slot is loaded *without* a NULL check (`node = (data_node*) slots[index]`),
which yields `nullDeref` when it is empty. -/
def findNode {α : Type} : RNode α → Nat → Nat → FindRes α
  | n, key, 0 =>
    match n with
    | RNode.data _ _ => FindRes.confused
    | RNode.branch _ _ slots =>
      match slots (digit key 0) with
      | none => FindRes.nullDeref
      | some (RNode.data k v) => FindRes.found k v
      | some (RNode.branch _ _ _) => FindRes.confused
  | n, key, h + 1 =>
    match n with
    | RNode.data _ _ => FindRes.confused
    | RNode.branch _ _ slots =>
      match slots (digit key (h + 1)) with
      | none => FindRes.endIt
      | some c => findNode c key h

/-- `__find (key)`: the out-of-range guard, then the descent. -/
def rt_find {α : Type} (t : radix_tree α) (key : Nat) : FindRes α :=
  if max_index t.rt_root.heightOf < key then FindRes.endIt
  else findNode t.rt_root key t.rt_root.heightOf

/-- The value `find` associates to `key`, ignoring how absence is
reported (`endIt` vs `nullDeref`).  Proof-side abstraction. -/
def rt_semFind {α : Type} (t : radix_tree α) (key : Nat) : Option α :=
  match rt_find t key with
  | FindRes.found _ v => some v
  | _ => none

/-- `erase (iterator)` and `shrink`, embedded top-down along the erased
key's digit path (fuel `h` = current height, `isRoot` = this node is
`rt_root`).  Returns `none` when the node itself was destroyed by the
shrink walk, in which case the caller clears its slot — faithfully *without*
decrementing its own `size` counter, exactly as `shrink` does; the walk
continues upward only while the *stored* `size` of the caller is 0.  At
height 0 the data node's slot is cleared and the parent's `size` is
decremented (`--p_node->size`), then `shrink` runs if it became 0. -/
def eraseNode {α : Type} : RNode α → Nat → Nat → Bool → Option (RNode α)
  | n, key, 0, isRoot =>
    match n with
    | RNode.data _ _ => some n
    | RNode.branch hh s slots =>
      if s - 1 = 0 ∧ isRoot = false then none
      else some (RNode.branch hh (s - 1) (Function.update slots (digit key 0) none))
  | n, key, h + 1, isRoot =>
    match n with
    | RNode.data _ _ => some n
    | RNode.branch hh s slots =>
      match slots (digit key (h + 1)) with
      | none => some n
      | some c =>
        match eraseNode c key h false with
        | some c' =>
          some (RNode.branch hh s (Function.update slots (digit key (h + 1)) (some c')))
        | none =>
          if s = 0 ∧ isRoot = false then none
          else some (RNode.branch hh s (Function.update slots (digit key (h + 1)) none))

/-- `erase (iterator)` on the data node holding `key`: fix up the trie,
unlink the data node from the order list (modelled from the spec), and
decrement `_size`. -/
def rt_eraseIter {α : Type} (t : radix_tree α) (key : Nat) : radix_tree α :=
  ⟨(eraseNode t.rt_root key t.rt_root.heightOf true).getD t.rt_root,
    t.head.eraseP (fun p => p.1 == key),
    t._size - 1⟩

/-- `erase (key)`: `find`, compare with `end ()`, and erase through the
iterator.  When `__find` returned the NULL-derived garbage pointer the
comparison with `end ()` is *false* and `erase (iterator)` runs on a
pointer not backed by any data node — undefined behavior, modelled as
`none`. -/
def rt_erase_key {α : Type} (t : radix_tree α) (key : Nat) :
    Option (radix_tree α × Nat) :=
  match rt_find t key with
  | FindRes.endIt => some (t, 0)
  | FindRes.found _ _ => some (rt_eraseIter t key, 1)
  | FindRes.nullDeref => none
  | FindRes.confused => none

/-- What the reference returned by `operator[]` refers to: a stored data
node's `value.second`, or memory not backed by any stored entry (offsets
from the `end()` sentinel or from a NULL `data_node` pointer). -/
inductive DerefRes (α : Type) where
  | value (v : α)
  | notBacked
deriving DecidableEq

/-- `operator[] (key) { return (find (key))->second; }` — the tree is
returned unchanged (the operator never inserts), together with what the
produced reference refers to. -/
def rt_opIndex {α : Type} (t : radix_tree α) (key : Nat) : radix_tree α × DerefRes α :=
  (t,
    match rt_find t key with
    | FindRes.found _ v => DerefRes.value v
    | _ => DerefRes.notBacked)

/-- The copy constructor: iterate the source's order list from `begin()` to
`end()` and re-insert every pair into a default-constructed tree. -/
def rt_copy {α : Type} (t : radix_tree α) : radix_tree α :=
  t.head.foldl (fun acc p => (rt_insert acc p.1 p.2).1) rt_empty

/-! ### Operation traces

A client program interacts with one tree instance through a sequence of
`insert` and `erase (key)` calls.  `runTrace` replays such a sequence on a
default-constructed tree; it returns `none` as soon as an operation leaves
the model (a key not representable in 64 bits, or an `erase` that runs into
the undefined behavior of `rt_erase_key`). -/

/-- One operation of a client trace. -/
inductive Op (α : Type) where
  | ins (key : Nat) (val : α)
  | del (key : Nat)
deriving DecidableEq

/-- Apply one operation. -/
def runOp {α : Type} (t : radix_tree α) : Op α → Option (radix_tree α)
  | Op.ins k v => if k < 2 ^ 64 then some (rt_insert t k v).1 else none
  | Op.del k => (rt_erase_key t k).map Prod.fst

/-- Replay a trace on a default-constructed tree. -/
def runTrace {α : Type} (ops : List (Op α)) : Option (radix_tree α) :=
  ops.foldlM runOp rt_empty

/-- The order list predicted by the specification for a trace: a fresh
insertion appends at the `end()` side, re-insertion of a live key changes
nothing, `erase` unlinks the key's node. -/
def specOrderStep {α : Type} (cur : List (Nat × α)) : Op α → List (Nat × α)
  | Op.ins k v => if (cur.lookup k).isSome then cur else cur ++ [(k, v)]
  | Op.del k => cur.eraseP (fun p => p.1 == k)

/-- The order list predicted by the specification after a whole trace. -/
def specOrder {α : Type} (ops : List (Op α)) : List (Nat × α) :=
  ops.foldl specOrderStep []

/-- Claim C8's reading of the iteration order: the keys in the order they
were *first* inserted over the whole trace, restricted to the keys that are
live at the end.  (This is the claim's words, not the code.) -/
def firstInsertKeys {α : Type} (ops : List (Op α)) : List Nat :=
  ops.foldl
    (fun acc op =>
      match op with
      | Op.ins k _ => if k ∈ acc then acc else acc ++ [k]
      | Op.del _ => acc)
    []

/-- Claim C8's predicted iteration order for a trace ending in tree `t`. -/
def claimC8Keys {α : Type} (ops : List (Op α)) (t : radix_tree α) : List Nat :=
  (firstInsertKeys ops).filter (fun k => (rt_semFind t k).isSome)

/-! ### The hash map (src/hashmap.h)

Only what claim C10 needs.  `hash.h` and `list.h` are not in the source
under verification; the hash function is an arbitrary parameter and the
bucket chains and order list are Lean lists (modelled from the spec). -/

/-- The hash map: bucket count `_size`, bucket chains `table` (the
`slot_head` lists), and the global order list `head`. -/
structure hashmap (κ α : Type) where
  _size : Nat
  table : Nat → List (κ × α)
  head : List (κ × α)

/-- The `list_head *` outcome of `hashmap::find`. -/
inductive HFindRes (α : Type) where
  | endIt
  | found (v : α)
deriving DecidableEq

/-- `hashmap::find`: hash the key, scan the bucket chain for the first
equal key, otherwise `end ()`. -/
def hm_find {κ α : Type} [DecidableEq κ] (hash : κ → Nat) (m : hashmap κ α)
    (key : κ) : HFindRes α :=
  match (m.table (hash key % m._size)).find? (fun p => decide (p.1 = key)) with
  | some p => HFindRes.found p.2
  | none => HFindRes.endIt

/-- `hashmap::insert`: scan the bucket chain; an equal key returns the
existing entry with `false`, otherwise a new node is linked into the bucket
chain and the order list. -/
def hm_insert {κ α : Type} [DecidableEq κ] (hash : κ → Nat) (m : hashmap κ α)
    (key : κ) (val : α) : hashmap κ α × Bool :=
  let b := hash key % m._size
  match (m.table b).find? (fun p => decide (p.1 = key)) with
  | some _ => (m, false)
  | none =>
    (⟨m._size, Function.update m.table b (m.table b ++ [(key, val)]),
      m.head ++ [(key, val)]⟩, true)

/-- `hashmap::operator[] (key) { return *(find (key)); }` — the map is
returned unchanged (the operator never inserts) together with what the
produced reference refers to; dereferencing `end ()` recovers no stored
entry. -/
def hm_opIndex {κ α : Type} [DecidableEq κ] (hash : κ → Nat) (m : hashmap κ α)
    (key : κ) : hashmap κ α × DerefRes α :=
  (m,
    match hm_find hash m key with
    | HFindRes.found v => DerefRes.value v
    | HFindRes.endIt => DerefRes.notBacked)

/-! ### Structural well-formedness

`occ` is the exact number of occupied slots of a slot array.  `WFb h pre n`
says that `n` is a well-formed subtree for fuel height `h` covering the
keys whose upper digits spell `pre`: height-0 branches hold only data nodes
whose stored key is reconstructed from the path, and their stored `size` is
exact; higher branches hold well-formed children and their stored `size` is
an upper bound of their occupancy (exactness is *lost* by `shrink`, see
claim C3). -/

/-- Number of occupied slots among the first `m` slots. -/
def occAux {α : Type} (slots : Nat → Option (RNode α)) : Nat → Nat
  | 0 => 0
  | m + 1 => occAux slots m + (if (slots m).isSome then 1 else 0)

/-- Number of occupied slots of a 64-entry slot array. -/
def occ {α : Type} (slots : Nat → Option (RNode α)) : Nat :=
  occAux slots 64

/-- Whether a single height-0 slot is well formed for prefix `pre`. -/
def leafSlotOK {α : Type} (pre i : Nat) : Option (RNode α) → Bool
  | none => true
  | some (RNode.data k _) => decide (k = pre * 64 + i)
  | some (RNode.branch _ _ _) => false

/-- Well-formedness of a subtree, by fuel height. -/
def WFb {α : Type} : Nat → Nat → RNode α → Bool
  | 0, pre, n =>
    match n with
    | RNode.data _ _ => false
    | RNode.branch _ s slots =>
      decide (s = occ slots) &&
        (List.range 64).all (fun i => leafSlotOK pre i (slots i))
  | h + 1, pre, n =>
    match n with
    | RNode.data _ _ => false
    | RNode.branch _ s slots =>
      decide (occ slots ≤ s) &&
        (List.range 64).all (fun i =>
          match slots i with
          | none => true
          | some c => WFb h (pre * 64 + i) c)

/-- The global invariant tying the trie, the order list and the counters
together on every reachable tree. -/
def rt_inv {α : Type} (t : radix_tree α) : Prop :=
  WFb t.rt_root.heightOf 0 t.rt_root = true ∧
  (∀ p ∈ t.head, p.1 ≤ max_index t.rt_root.heightOf) ∧
  (t.head.map Prod.fst).Nodup ∧
  t._size = t.head.length ∧
  (∀ k, rt_semFind t k = t.head.lookup k)

/-- A tree is reachable when some client trace produces it. -/
def Reachable {α : Type} (t : radix_tree α) : Prop :=
  ∃ ops : List (Op α), runTrace ops = some t

/-! ### Projections used by the concrete counterexample theorems -/

/-- Stored `size` of the root branch node. -/
def rootStoredSize {α : Type} (t : radix_tree α) : Nat := t.rt_root.storedSize

/-- Exact number of occupied slots of the root branch node. -/
def rootOcc {α : Type} (t : radix_tree α) : Nat :=
  match t.rt_root with
  | RNode.branch _ _ slots => occ slots
  | RNode.data _ _ => 0

/-- The child in root slot `i`. -/
def childAt {α : Type} (t : radix_tree α) (i : Nat) : Option (RNode α) :=
  match t.rt_root with
  | RNode.branch _ _ slots => slots i
  | RNode.data _ _ => none

/-- The digits of `key` above level `h` (proof-side abstraction). -/
def pref (key : Nat) (h : Nat) : Nat := key / 64 ^ h

/-- The value a subtree associates to `key` (proof-side abstraction over
`findNode`, ignoring how absence is reported). -/
def semNode {α : Type} (n : RNode α) (k : Nat) (h : Nat) : Option α :=
  match findNode n k h with
  | FindRes.found _ v => some v
  | _ => none

/-- `rt_semFind` at the level of a root node. -/
def semRoot {α : Type} (r : RNode α) (k : Nat) : Option α :=
  if max_index r.heightOf < k then none else semNode r k r.heightOf

/-! ### Digit arithmetic -/

theorem digit_eq_mod (key h : Nat) : digit key h = pref key h % 64 := by
  unfold digit pref RT_BRANCH_FACTOR_BIT RT_BRANCH_INDEX_MASK
  have h63 : (63 : Nat) = 2 ^ 6 - 1 := by norm_num
  rw [h63, Nat.and_pow_two_sub_one_eq_mod, Nat.shiftRight_eq_div_pow, pow_mul]
  norm_num

theorem digit_lt (key h : Nat) : digit key h < 64 := by
  rw [digit_eq_mod]; exact Nat.mod_lt _ (by norm_num)

theorem pref_zero (key : Nat) : pref key 0 = key := by
  simp [pref]

theorem pref_succ (key h : Nat) : pref key (h + 1) = pref key h / 64 := by
  rw [pref, pref, pow_succ, Nat.div_div_eq_div_mul]

theorem pref_decomp (key h : Nat) : 64 * pref key (h + 1) + digit key h = pref key h := by
  rw [digit_eq_mod, pref_succ]
  exact Nat.div_add_mod (pref key h) 64

theorem key_decomp (key : Nat) : 64 * pref key 1 + digit key 0 = key := by
  have := pref_decomp key 0
  rwa [pref_zero] at this

theorem pref_eq_zero_iff (key h : Nat) : pref key h = 0 ↔ key < 64 ^ h :=
  Nat.div_eq_zero_iff (by positivity)

/-! ### `max_index` facts -/

theorem max_index_eq_pow {h : Nat} (hle : h ≤ 9) :
    max_index h = 2 ^ (6 * (h + 1)) - 1 := by
  unfold max_index RT_BRANCH_FACTOR_BIT
  have hle2 : (2 : Nat) ^ (6 * (h + 1)) ≤ 2 ^ 64 :=
    Nat.pow_le_pow_right (by norm_num) (by omega)
  have h1 : (1 : Nat) ≤ 2 ^ (6 * (h + 1)) := Nat.one_le_two_pow
  exact Nat.mod_eq_of_lt (by omega)

theorem max_index_of_ten_le {h : Nat} (hge : 10 ≤ h) : max_index h = 2 ^ 64 - 1 := by
  unfold max_index RT_BRANCH_FACTOR_BIT
  have hdvd : (2 : Nat) ^ 64 ∣ 2 ^ (6 * (h + 1)) := pow_dvd_pow 2 (by omega)
  obtain ⟨c, hc⟩ := hdvd
  have hc1 : 1 ≤ c := by
    rcases Nat.eq_zero_or_pos c with h0 | h1
    · exfalso
      have hne : (2 : Nat) ^ (6 * (h + 1)) ≠ 0 := by positivity
      rw [hc, h0, Nat.mul_zero] at hne
      exact hne rfl
    · exact h1
  obtain ⟨c', rfl⟩ := Nat.exists_eq_add_of_le hc1
  have h64 : (1 : Nat) ≤ 2 ^ 64 := Nat.one_le_two_pow
  have hsplit : (2 : Nat) ^ (6 * (h + 1)) - 1 = (2 ^ 64 - 1) + c' * 2 ^ 64 := by
    rw [hc, Nat.mul_add, Nat.mul_one]
    have hcomm := Nat.mul_comm (2 ^ 64) c'
    omega
  rw [hsplit, Nat.add_mul_mod_self_right, Nat.mod_eq_of_lt (by omega)]

theorem max_index_lt (h : Nat) : max_index h < 2 ^ 64 := by
  unfold max_index
  exact Nat.mod_lt _ (by positivity)

theorem max_index_le_pow (h : Nat) : max_index h ≤ 2 ^ (6 * (h + 1)) - 1 := by
  rcases Nat.lt_or_ge h 10 with hlt | hge
  · rw [max_index_eq_pow (by omega)]
  · rw [max_index_of_ten_le hge]
    have hp : (2 : Nat) ^ 64 ≤ 2 ^ (6 * (h + 1)) :=
      Nat.pow_le_pow_right (by norm_num) (by omega)
    exact Nat.sub_le_sub_right hp 1

theorem max_index_mono {h h' : Nat} (hle : h ≤ h') : max_index h ≤ max_index h' := by
  rcases Nat.lt_or_ge h' 10 with hlt | hge10
  · rw [max_index_eq_pow (by omega), max_index_eq_pow (by omega)]
    exact Nat.sub_le_sub_right
      (Nat.pow_le_pow_right (by norm_num) (by omega)) 1
  · rw [max_index_of_ten_le hge10]
    exact Nat.le_sub_one_of_lt (max_index_lt h)

theorem pref_zero_of_le_max {key h : Nat} (hle : key ≤ max_index h) :
    pref key (h + 1) = 0 := by
  rw [pref_eq_zero_iff]
  have h2 : (64 : Nat) ^ (h + 1) = 2 ^ (6 * (h + 1)) := by
    rw [pow_mul]; norm_num
  have hp0 : (0 : Nat) < 2 ^ (6 * (h + 1)) := by positivity
  have h1 : max_index h ≤ 2 ^ (6 * (h + 1)) - 1 := max_index_le_pow h
  rw [h2]
  exact lt_of_le_of_lt (le_trans hle h1) (Nat.sub_lt hp0 one_pos)

/-! ### Occupancy counting -/

theorem occAux_congr {α : Type} {f g : Nat → Option (RNode α)} {m : Nat}
    (h : ∀ i, i < m → (f i).isSome = (g i).isSome) : occAux f m = occAux g m := by
  induction m with
  | zero => rfl
  | succ m ih =>
    unfold occAux
    rw [ih (fun i hi => h i (by omega)), h m (by omega)]

theorem occAux_update_of_ge {α : Type} {f : Nat → Option (RNode α)} {j m : Nat}
    (h : m ≤ j) (x : Option (RNode α)) : occAux (Function.update f j x) m = occAux f m :=
  occAux_congr (fun i hi => by rw [Function.update_noteq (by omega)])

theorem occAux_update_none_some {α : Type} {f : Nat → Option (RNode α)} {j m : Nat}
    (hj : j < m) (hnone : f j = none) (c : RNode α) :
    occAux (Function.update f j (some c)) m = occAux f m + 1 := by
  induction m with
  | zero => omega
  | succ m ih =>
    unfold occAux
    rcases Nat.lt_or_ge j m with hlt | hge
    · rw [ih hlt, Function.update_noteq (by omega)]
      omega
    · have hjm : j = m := by omega
      subst hjm
      rw [occAux_update_of_ge le_rfl, Function.update_same, hnone]
      simp

theorem occAux_update_some_none {α : Type} {f : Nat → Option (RNode α)} {j m : Nat}
    (hj : j < m) (hsome : (f j).isSome = true) :
    occAux f m = occAux (Function.update f j none) m + 1 := by
  induction m with
  | zero => omega
  | succ m ih =>
    unfold occAux
    rcases Nat.lt_or_ge j m with hlt | hge
    · rw [ih hlt, Function.update_noteq (by omega)]
      omega
    · have hjm : j = m := by omega
      subst hjm
      rw [occAux_update_of_ge le_rfl, Function.update_same, hsome]
      simp

theorem occAux_update_some_some {α : Type} {f : Nat → Option (RNode α)} {j m : Nat}
    (hsome : (f j).isSome = true) (c : RNode α) :
    occAux (Function.update f j (some c)) m = occAux f m := by
  refine occAux_congr (fun i hi => ?_)
  rcases eq_or_ne i j with rfl | hne
  · rw [Function.update_same, hsome]; rfl
  · rw [Function.update_noteq hne]

theorem occAux_pos {α : Type} {f : Nat → Option (RNode α)} {j m : Nat}
    (hj : j < m) (hsome : (f j).isSome = true) : 0 < occAux f m := by
  induction m with
  | zero => omega
  | succ m ih =>
    unfold occAux
    rcases Nat.lt_or_ge j m with hlt | hge
    · have := ih hlt; omega
    · have hjm : j = m := by omega
      subst hjm
      rw [hsome]
      simp

theorem occ_two_le {α : Type} {f : Nat → Option (RNode α)} {i j : Nat}
    (hi : i < 64) (hj : j < 64) (hne : i ≠ j)
    (hsi : (f i).isSome = true) (hsj : (f j).isSome = true) : 2 ≤ occ f := by
  unfold occ
  have h1 : occAux f 64 = occAux (Function.update f i none) 64 + 1 :=
    occAux_update_some_none hi hsi
  have h2 : 0 < occAux (Function.update f i none) 64 := by
    refine occAux_pos hj ?_
    rw [Function.update_noteq (Ne.symm hne)]
    exact hsj
  omega

/-! ### Well-formedness characterizations -/

theorem WFb_zero_iff {α : Type} {pre hh s : Nat} {slots : Nat → Option (RNode α)} :
    WFb 0 pre (RNode.branch hh s slots) = true ↔
      s = occ slots ∧ ∀ i, i < 64 → leafSlotOK pre i (slots i) = true := by
  show (decide (s = occ slots) && (List.range 64).all (fun i => leafSlotOK pre i (slots i)))
      = true ↔ _
  rw [Bool.and_eq_true, decide_eq_true_eq, List.all_eq_true]
  constructor
  · rintro ⟨h1, h2⟩
    exact ⟨h1, fun i hi => h2 i (List.mem_range.mpr hi)⟩
  · rintro ⟨h1, h2⟩
    exact ⟨h1, fun i hi => h2 i (List.mem_range.mp hi)⟩

theorem WFb_succ_iff {α : Type} {h pre hh s : Nat} {slots : Nat → Option (RNode α)} :
    WFb (h + 1) pre (RNode.branch hh s slots) = true ↔
      occ slots ≤ s ∧
        ∀ i, i < 64 → ∀ c, slots i = some c → WFb h (pre * 64 + i) c = true := by
  show (decide (occ slots ≤ s) &&
      (List.range 64).all (fun i =>
        match slots i with
        | none => true
        | some c => WFb h (pre * 64 + i) c)) = true ↔ _
  rw [Bool.and_eq_true, decide_eq_true_eq, List.all_eq_true]
  constructor
  · rintro ⟨h1, h2⟩
    refine ⟨h1, fun i hi c hc => ?_⟩
    have h3 := h2 i (List.mem_range.mpr hi)
    rw [hc] at h3
    exact h3
  · rintro ⟨h1, h2⟩
    refine ⟨h1, fun i hi => ?_⟩
    cases hsl : slots i with
    | none => rfl
    | some c => exact h2 i (List.mem_range.mp hi) c hsl

theorem leafSlotOK_iff {α : Type} {pre i : Nat} {sl : Option (RNode α)} :
    leafSlotOK pre i sl = true ↔
      sl = none ∨ ∃ v, sl = some (RNode.data (pre * 64 + i) v) := by
  cases sl with
  | none => simp [leafSlotOK]
  | some c =>
    cases c with
    | data k v =>
      simp only [leafSlotOK, decide_eq_true_eq]
      constructor
      · intro hk
        exact Or.inr ⟨v, by rw [hk]⟩
      · rintro (hc | ⟨v', hv⟩)
        · exact absurd hc (by simp)
        · simp only [Option.some.injEq, RNode.data.injEq] at hv
          exact hv.1
    | branch hh s slots =>
      constructor
      · intro hfalse
        exact absurd hfalse (by simp [leafSlotOK])
      · rintro (hc | ⟨v', hv⟩)
        · exact absurd hc (by simp)
        · exact absurd hv (by simp)

theorem WFb_branch_shape {α : Type} {h pre : Nat} {n : RNode α}
    (hwf : WFb h pre n = true) : ∃ hh s slots, n = RNode.branch hh s slots := by
  cases n with
  | data k v =>
    exfalso
    cases h with
    | zero => simp [WFb] at hwf
    | succ h => simp [WFb] at hwf
  | branch hh s slots => exact ⟨hh, s, slots, rfl⟩

theorem WFb_emptyBranch {α : Type} (h pre hh : Nat) :
    WFb h pre (RNode.branch hh 0 (emptySlots (α := α))) = true := by
  cases h with
  | zero => rfl
  | succ h => rfl

/-! ### Occupancy wrappers -/

theorem occ_update_none_some {α : Type} {f : Nat → Option (RNode α)} {j : Nat}
    (hj : j < 64) (hnone : f j = none) (c : RNode α) :
    occ (Function.update f j (some c)) = occ f + 1 :=
  occAux_update_none_some hj hnone c

theorem occ_update_some_some {α : Type} {f : Nat → Option (RNode α)} {j : Nat}
    (hsome : (f j).isSome = true) (c : RNode α) :
    occ (Function.update f j (some c)) = occ f :=
  occAux_update_some_some hsome c

theorem occ_update_some_none {α : Type} {f : Nat → Option (RNode α)} {j : Nat}
    (hj : j < 64) (hsome : (f j).isSome = true) :
    occ f = occ (Function.update f j none) + 1 :=
  occAux_update_some_none hj hsome

theorem occ_pos {α : Type} {f : Nat → Option (RNode α)} {j : Nat}
    (hj : j < 64) (hsome : (f j).isSome = true) : 0 < occ f :=
  occAux_pos hj hsome

/-! ### `findNode` and `semNode` basics -/

theorem findNode_zero_branch {α : Type} (hh s : Nat) (slots : Nat → Option (RNode α))
    (k : Nat) :
    findNode (RNode.branch hh s slots) k 0 =
      match slots (digit k 0) with
      | none => FindRes.nullDeref
      | some (RNode.data k' v) => FindRes.found k' v
      | some (RNode.branch _ _ _) => FindRes.confused := rfl

theorem findNode_succ_branch {α : Type} (hh s : Nat) (slots : Nat → Option (RNode α))
    (k : Nat) (h : Nat) :
    findNode (RNode.branch hh s slots) k (h + 1) =
      match slots (digit k (h + 1)) with
      | none => FindRes.endIt
      | some c => findNode c k h := rfl

theorem semNode_zero {α : Type} {hh s : Nat} {slots : Nat → Option (RNode α)} {k : Nat} :
    semNode (RNode.branch hh s slots) k 0 =
      match slots (digit k 0) with
      | some (RNode.data _ v) => some v
      | _ => none := by
  unfold semNode
  rw [findNode_zero_branch]
  cases hsl : slots (digit k 0) with
  | none => rfl
  | some c => cases c <;> rfl

theorem semNode_succ {α : Type} {hh s : Nat} {slots : Nat → Option (RNode α)} {k : Nat}
    {h : Nat} :
    semNode (RNode.branch hh s slots) k (h + 1) =
      match slots (digit k (h + 1)) with
      | none => none
      | some c => semNode c k h := by
  unfold semNode
  rw [findNode_succ_branch]
  cases hsl : slots (digit k (h + 1)) with
  | none => rfl
  | some c => rfl

theorem semNode_emptyBranch {α : Type} (hh : Nat) (k : Nat) (h : Nat) :
    semNode (RNode.branch hh 0 (emptySlots (α := α))) k h = none := by
  cases h with
  | zero => rfl
  | succ h => rfl

/-- Under well-formedness, a successful `__find` descent always lands on the
data node whose stored key is the searched key. -/
theorem findNode_found_key {α : Type} :
    ∀ (h pre : Nat) (n : RNode α) (k k₀ : Nat) (v : α),
      WFb h pre n = true → pref k (h + 1) = pre →
      findNode n k h = FindRes.found k₀ v → k₀ = k := by
  intro h
  induction h with
  | zero =>
    intro pre n k k₀ v hwf hpre hfind
    obtain ⟨hh, s, slots, rfl⟩ := WFb_branch_shape hwf
    rw [WFb_zero_iff] at hwf
    obtain ⟨hocc, hslots⟩ := hwf
    rw [findNode_zero_branch] at hfind
    cases hsl : slots (digit k 0) with
    | none =>
      rw [hsl] at hfind
      exact absurd (show FindRes.nullDeref = FindRes.found k₀ v from hfind) (by simp)
    | some c =>
      rw [hsl] at hfind
      have hok := hslots (digit k 0) (digit_lt k 0)
      rw [leafSlotOK_iff, hsl] at hok
      rcases hok with hnone | ⟨v', hv⟩
      · exact absurd hnone (by simp)
      · rw [Option.some.injEq] at hv
        subst hv
        have hfind' : FindRes.found (pre * 64 + digit k 0) v' = FindRes.found k₀ v := hfind
        rw [FindRes.found.injEq] at hfind'
        have h1 := key_decomp k
        have h2 : pref k 1 = pre := hpre
        have h3 : k₀ = pre * 64 + digit k 0 := hfind'.1.symm
        clear hfind hfind' hsl hslots
        omega
  | succ h ih =>
    intro pre n k k₀ v hwf hpre hfind
    obtain ⟨hh, s, slots, rfl⟩ := WFb_branch_shape hwf
    rw [WFb_succ_iff] at hwf
    obtain ⟨hocc, hslots⟩ := hwf
    rw [findNode_succ_branch] at hfind
    cases hsl : slots (digit k (h + 1)) with
    | none =>
      rw [hsl] at hfind
      exact absurd (show FindRes.endIt = FindRes.found k₀ v from hfind) (by simp)
    | some c =>
      rw [hsl] at hfind
      have hpre' : pref k (h + 1) = pre * 64 + digit k (h + 1) := by
        have hd := pref_decomp k (h + 1)
        have h2 : pref k (h + 2) = pre := hpre
        omega
      exact ih (pre * 64 + digit k (h + 1)) c k k₀ v
        (hslots _ (digit_lt k (h + 1)) c hsl) hpre' hfind

/-! ### `insertNode` lemmas -/

theorem insertNode_heightOf {α : Type} (n : RNode α) (k : Nat) (v : α) (h : Nat) :
    ((insertNode n k v h).1).heightOf = n.heightOf := by
  cases h with
  | zero =>
    cases n with
    | data k' v' => rfl
    | branch hh s slots =>
      cases hsl : slots (digit k 0) with
      | some c => simp [insertNode, hsl, RNode.heightOf]
      | none => simp [insertNode, hsl, RNode.heightOf]
  | succ h =>
    cases n with
    | data k' v' => rfl
    | branch hh s slots =>
      cases hsl : slots (digit k (h + 1)) with
      | some c => simp [insertNode, hsl, RNode.heightOf]
      | none => simp [insertNode, hsl, RNode.heightOf]

theorem insertNode_empty_fresh {α : Type} :
    ∀ (h hh : Nat) (k : Nat) (v : α),
      (insertNode (RNode.branch hh 0 (emptySlots (α := α))) k v h).2 = true := by
  intro h
  induction h with
  | zero => intro hh k v; rfl
  | succ h ih => intro hh k v; exact ih h k v

/-- The prefix carried down one level of the descent. -/
theorem pref_child {k : Nat} {h pre : Nat} (hpre : pref k (h + 2) = pre) :
    pref k (h + 1) = pre * 64 + digit k (h + 1) := by
  have hd := pref_decomp k (h + 1)
  have hpre2 : pref k (h + 1 + 1) = pre := hpre
  omega

theorem insertNode_wf {α : Type} :
    ∀ (h pre : Nat) (n : RNode α) (k : Nat) (v : α),
      WFb h pre n = true → pref k (h + 1) = pre →
      WFb h pre (insertNode n k v h).1 = true := by
  intro h
  induction h with
  | zero =>
    intro pre n k v hwf hpre
    obtain ⟨hh, s, slots, rfl⟩ := WFb_branch_shape hwf
    rw [WFb_zero_iff] at hwf
    obtain ⟨hocc, hslots⟩ := hwf
    cases hsl : slots (digit k 0) with
    | some c =>
      have heq : insertNode (RNode.branch hh s slots) k v 0 =
          (RNode.branch hh s slots, false) := by
        simp [insertNode, hsl]
      rw [heq]
      exact WFb_zero_iff.mpr ⟨hocc, hslots⟩
    | none =>
      have heq : insertNode (RNode.branch hh s slots) k v 0 =
          (RNode.branch hh (s + 1)
            (Function.update slots (digit k 0) (some (RNode.data k v))), true) := by
        simp [insertNode, hsl]
      rw [heq]
      refine WFb_zero_iff.mpr ⟨?_, ?_⟩
      · rw [occ_update_none_some (digit_lt k 0) hsl]
        omega
      · intro i hi
        rcases eq_or_ne i (digit k 0) with rfl | hne
        · rw [Function.update_same, leafSlotOK_iff]
          right
          have h1 := key_decomp k
          have h2 : pref k 1 = pre := hpre
          have h3 : k = pre * 64 + digit k 0 := by omega
          exact ⟨v, by rw [← h3]⟩
        · rw [Function.update_noteq hne]
          exact hslots i hi
  | succ h ih =>
    intro pre n k v hwf hpre
    obtain ⟨hh, s, slots, rfl⟩ := WFb_branch_shape hwf
    rw [WFb_succ_iff] at hwf
    obtain ⟨hocc, hslots⟩ := hwf
    have hpre' : pref k (h + 1) = pre * 64 + digit k (h + 1) := pref_child hpre
    cases hsl : slots (digit k (h + 1)) with
    | some c =>
      have heq : insertNode (RNode.branch hh s slots) k v (h + 1) =
          (RNode.branch hh s
            (Function.update slots (digit k (h + 1)) (some (insertNode c k v h).1)),
            (insertNode c k v h).2) := by
        simp [insertNode, hsl]
      rw [heq]
      refine WFb_succ_iff.mpr ⟨?_, ?_⟩
      · rw [occ_update_some_some (by rw [hsl]; rfl)]
        exact hocc
      · intro i hi c' hc'
        rcases eq_or_ne i (digit k (h + 1)) with rfl | hne
        · rw [Function.update_same, Option.some.injEq] at hc'
          subst hc'
          exact ih _ c k v (hslots _ (digit_lt k (h + 1)) c hsl) hpre'
        · rw [Function.update_noteq hne] at hc'
          exact hslots i hi c' hc'
    | none =>
      have heq : insertNode (RNode.branch hh s slots) k v (h + 1) =
          (RNode.branch hh (s + 1)
            (Function.update slots (digit k (h + 1))
              (some (insertNode (RNode.branch h 0 emptySlots) k v h).1)),
            (insertNode (RNode.branch h 0 emptySlots) k v h).2) := by
        simp [insertNode, hsl]
      rw [heq]
      refine WFb_succ_iff.mpr ⟨?_, ?_⟩
      · rw [occ_update_none_some (digit_lt k (h + 1)) hsl]
        omega
      · intro i hi c' hc'
        rcases eq_or_ne i (digit k (h + 1)) with rfl | hne
        · rw [Function.update_same, Option.some.injEq] at hc'
          subst hc'
          exact ih _ _ k v (WFb_emptyBranch h _ h) hpre'
        · rw [Function.update_noteq hne] at hc'
          exact hslots i hi c' hc'

theorem insertNode_self {α : Type} :
    ∀ (h pre : Nat) (n : RNode α) (k : Nat) (v : α),
      WFb h pre n = true → pref k (h + 1) = pre →
      ((insertNode n k v h).2 = true →
          semNode n k h = none ∧ semNode (insertNode n k v h).1 k h = some v) ∧
      ((insertNode n k v h).2 = false →
          (insertNode n k v h).1 = n ∧ ∃ v₀, semNode n k h = some v₀) := by
  intro h
  induction h with
  | zero =>
    intro pre n k v hwf hpre
    obtain ⟨hh, s, slots, rfl⟩ := WFb_branch_shape hwf
    rw [WFb_zero_iff] at hwf
    obtain ⟨hocc, hslots⟩ := hwf
    cases hsl : slots (digit k 0) with
    | some c =>
      have heq : insertNode (RNode.branch hh s slots) k v 0 =
          (RNode.branch hh s slots, false) := by
        simp [insertNode, hsl]
      rw [heq]
      refine ⟨fun hfl => absurd hfl (by simp), fun _ => ⟨rfl, ?_⟩⟩
      have hok := hslots (digit k 0) (digit_lt k 0)
      rw [leafSlotOK_iff, hsl] at hok
      rcases hok with hnone | ⟨v', hv⟩
      · exact absurd hnone (by simp)
      · rw [Option.some.injEq] at hv
        subst hv
        refine ⟨v', ?_⟩
        rw [semNode_zero, hsl]
    | none =>
      have heq : insertNode (RNode.branch hh s slots) k v 0 =
          (RNode.branch hh (s + 1)
            (Function.update slots (digit k 0) (some (RNode.data k v))), true) := by
        simp [insertNode, hsl]
      rw [heq]
      refine ⟨fun _ => ⟨?_, ?_⟩, fun hfl => absurd hfl (by simp)⟩
      · rw [semNode_zero, hsl]
      · rw [semNode_zero, Function.update_same]
  | succ h ih =>
    intro pre n k v hwf hpre
    obtain ⟨hh, s, slots, rfl⟩ := WFb_branch_shape hwf
    rw [WFb_succ_iff] at hwf
    obtain ⟨hocc, hslots⟩ := hwf
    have hpre' : pref k (h + 1) = pre * 64 + digit k (h + 1) := pref_child hpre
    cases hsl : slots (digit k (h + 1)) with
    | some c =>
      have hwfc := hslots _ (digit_lt k (h + 1)) c hsl
      have hih := ih _ c k v hwfc hpre'
      have heq : insertNode (RNode.branch hh s slots) k v (h + 1) =
          (RNode.branch hh s
            (Function.update slots (digit k (h + 1)) (some (insertNode c k v h).1)),
            (insertNode c k v h).2) := by
        simp [insertNode, hsl]
      rw [heq]
      constructor
      · intro hfl
        obtain ⟨hbefore, hafter⟩ := hih.1 hfl
        constructor
        · rw [semNode_succ, hsl]
          exact hbefore
        · rw [semNode_succ, Function.update_same]
          exact hafter
      · intro hfl
        obtain ⟨hsame, v₀, hv₀⟩ := hih.2 hfl
        constructor
        · rw [hsame, ← hsl, Function.update_eq_self]
        · refine ⟨v₀, ?_⟩
          rw [semNode_succ, hsl]
          exact hv₀
    | none =>
      have hfresh := insertNode_empty_fresh (α := α) h h k v
      have hih := ih _ (RNode.branch h 0 emptySlots) k v (WFb_emptyBranch h _ h) hpre'
      have heq : insertNode (RNode.branch hh s slots) k v (h + 1) =
          (RNode.branch hh (s + 1)
            (Function.update slots (digit k (h + 1))
              (some (insertNode (RNode.branch h 0 emptySlots) k v h).1)),
            (insertNode (RNode.branch h 0 emptySlots) k v h).2) := by
        simp [insertNode, hsl]
      rw [heq]
      constructor
      · intro _
        obtain ⟨_, hafter⟩ := hih.1 hfresh
        constructor
        · rw [semNode_succ, hsl]
        · rw [semNode_succ, Function.update_same]
          exact hafter
      · intro hfl
        rw [hfresh] at hfl
        exact absurd hfl (by simp)

theorem insertNode_other {α : Type} :
    ∀ (h pre : Nat) (n : RNode α) (k k' : Nat) (v : α),
      WFb h pre n = true → pref k (h + 1) = pre → pref k' (h + 1) = pre → k' ≠ k →
      semNode (insertNode n k v h).1 k' h = semNode n k' h := by
  intro h
  induction h with
  | zero =>
    intro pre n k k' v hwf hpre hpre' hne
    obtain ⟨hh, s, slots, rfl⟩ := WFb_branch_shape hwf
    have hdig : digit k' 0 ≠ digit k 0 := by
      intro hdd
      apply hne
      have h1 := key_decomp k
      have h2 := key_decomp k'
      have h3 : pref k 1 = pre := hpre
      have h4 : pref k' 1 = pre := hpre'
      omega
    cases hsl : slots (digit k 0) with
    | some c =>
      have heq : insertNode (RNode.branch hh s slots) k v 0 =
          (RNode.branch hh s slots, false) := by
        simp [insertNode, hsl]
      rw [heq]
    | none =>
      have heq : insertNode (RNode.branch hh s slots) k v 0 =
          (RNode.branch hh (s + 1)
            (Function.update slots (digit k 0) (some (RNode.data k v))), true) := by
        simp [insertNode, hsl]
      rw [heq, semNode_zero, semNode_zero, Function.update_noteq hdig]
  | succ h ih =>
    intro pre n k k' v hwf hpre hpre' hne
    obtain ⟨hh, s, slots, rfl⟩ := WFb_branch_shape hwf
    rw [WFb_succ_iff] at hwf
    obtain ⟨hocc, hslots⟩ := hwf
    have hprec : pref k (h + 1) = pre * 64 + digit k (h + 1) := pref_child hpre
    rcases eq_or_ne (digit k' (h + 1)) (digit k (h + 1)) with hdig | hdig
    · have hprec' : pref k' (h + 1) = pre * 64 + digit k (h + 1) := by
        have := pref_child hpre'
        rw [hdig] at this
        exact this
      cases hsl : slots (digit k (h + 1)) with
      | some c =>
        have hwfc := hslots _ (digit_lt k (h + 1)) c hsl
        have heq : insertNode (RNode.branch hh s slots) k v (h + 1) =
            (RNode.branch hh s
              (Function.update slots (digit k (h + 1)) (some (insertNode c k v h).1)),
              (insertNode c k v h).2) := by
          simp [insertNode, hsl]
        rw [heq, semNode_succ, semNode_succ, hdig, Function.update_same, hsl]
        exact ih _ c k k' v hwfc hprec hprec' hne
      | none =>
        have heq : insertNode (RNode.branch hh s slots) k v (h + 1) =
            (RNode.branch hh (s + 1)
              (Function.update slots (digit k (h + 1))
                (some (insertNode (RNode.branch h 0 emptySlots) k v h).1)),
              (insertNode (RNode.branch h 0 emptySlots) k v h).2) := by
          simp [insertNode, hsl]
        rw [heq, semNode_succ, semNode_succ, hdig, Function.update_same, hsl]
        have hred : semNode (insertNode (RNode.branch h 0 emptySlots) k v h).1 k' h =
            (none : Option α) := by
          rw [ih _ _ k k' v (WFb_emptyBranch h _ h) hprec hprec' hne, semNode_emptyBranch]
        exact hred
    · cases hsl : slots (digit k (h + 1)) with
      | some c =>
        have heq : insertNode (RNode.branch hh s slots) k v (h + 1) =
            (RNode.branch hh s
              (Function.update slots (digit k (h + 1)) (some (insertNode c k v h).1)),
              (insertNode c k v h).2) := by
          simp [insertNode, hsl]
        rw [heq, semNode_succ, semNode_succ, Function.update_noteq hdig]
      | none =>
        have heq : insertNode (RNode.branch hh s slots) k v (h + 1) =
            (RNode.branch hh (s + 1)
              (Function.update slots (digit k (h + 1))
                (some (insertNode (RNode.branch h 0 emptySlots) k v h).1)),
              (insertNode (RNode.branch h 0 emptySlots) k v h).2) := by
          simp [insertNode, hsl]
        rw [heq, semNode_succ, semNode_succ, Function.update_noteq hdig]

/-! ### `eraseNode` lemmas -/

theorem eraseNode_heightOf {α : Type} (h : Nat) (n : RNode α) (k : Nat) (isRoot : Bool)
    (n' : RNode α) (he : eraseNode n k h isRoot = some n') : n'.heightOf = n.heightOf := by
  cases h with
  | zero =>
    cases n with
    | data k' v' =>
      simp only [eraseNode, Option.some.injEq] at he
      rw [← he]
    | branch hh s slots =>
      simp only [eraseNode] at he
      split at he
      · exact absurd he (by simp)
      · rw [Option.some.injEq] at he
        rw [← he]
        rfl
  | succ h =>
    cases n with
    | data k' v' =>
      simp only [eraseNode, Option.some.injEq] at he
      rw [← he]
    | branch hh s slots =>
      cases hsl : slots (digit k (h + 1)) with
      | none =>
        simp only [eraseNode, hsl, Option.some.injEq] at he
        rw [← he]
      | some c =>
        cases hec : eraseNode c k h false with
        | some c' =>
          simp only [eraseNode, hsl, hec, Option.some.injEq] at he
          rw [← he]
          rfl
        | none =>
          simp only [eraseNode, hsl, hec] at he
          split at he
          · exact absurd he (by simp)
          · rw [Option.some.injEq] at he
            rw [← he]
            rfl

/-- Main correctness lemma for `eraseNode` on a present key: the returned
node stays well formed, no longer contains the key, and contains every
other key unchanged; when the node itself was destroyed by the shrink walk
it was not the root and contained no other key. -/
theorem eraseNode_spec {α : Type} :
    ∀ (h pre : Nat) (n : RNode α) (k : Nat) (v : α) (isRoot : Bool),
      WFb h pre n = true → pref k (h + 1) = pre → semNode n k h = some v →
      (∀ n', eraseNode n k h isRoot = some n' →
          WFb h pre n' = true ∧ semNode n' k h = none ∧
          ∀ k', pref k' (h + 1) = pre → k' ≠ k → semNode n' k' h = semNode n k' h) ∧
      (eraseNode n k h isRoot = none →
          isRoot = false ∧
          ∀ k', pref k' (h + 1) = pre → k' ≠ k → semNode n k' h = none) := by
  intro h
  induction h with
  | zero =>
    intro pre n k v isRoot hwf hpre hsem
    obtain ⟨hh, s, slots, rfl⟩ := WFb_branch_shape hwf
    rw [WFb_zero_iff] at hwf
    obtain ⟨hocc, hslots⟩ := hwf
    rw [semNode_zero] at hsem
    cases hsl : slots (digit k 0) with
    | none =>
      rw [hsl] at hsem
      exact absurd (show (none : Option α) = some v from hsem) (by simp)
    | some c =>
      have hkey : ∀ k', pref k' 1 = pre → k' ≠ k → digit k' 0 ≠ digit k 0 := by
        intro k' hp' hne hdd
        apply hne
        have h1 := key_decomp k
        have h2 := key_decomp k'
        have h3 : pref k 1 = pre := hpre
        omega
      have hsk : (slots (digit k 0)).isSome = true := by rw [hsl]; rfl
      have hpos : 0 < occ slots := occ_pos (digit_lt k 0) hsk
      constructor
      · intro n' he
        simp only [eraseNode] at he
        split at he
        · exact absurd he (by simp)
        · rw [Option.some.injEq] at he
          subst he
          refine ⟨?_, ?_, ?_⟩
          · refine WFb_zero_iff.mpr ⟨?_, ?_⟩
            · have hdec := occ_update_some_none (digit_lt k 0) hsk
              omega
            · intro i hi
              rcases eq_or_ne i (digit k 0) with rfl | hne
              · rw [Function.update_same]
                rfl
              · rw [Function.update_noteq hne]
                exact hslots i hi
          · rw [semNode_zero, Function.update_same]
          · intro k' hp' hne
            rw [semNode_zero, semNode_zero, Function.update_noteq (hkey k' hp' hne)]
      · intro he
        simp only [eraseNode] at he
        split at he
        · rename_i hcond
          refine ⟨hcond.2, fun k' hp' hne => ?_⟩
          rw [semNode_zero]
          cases hsl' : slots (digit k' 0) with
          | none => rfl
          | some c' =>
            exfalso
            have hsi : (slots (digit k' 0)).isSome = true := by rw [hsl']; rfl
            have h2 := occ_two_le (digit_lt k' 0) (digit_lt k 0) (hkey k' hp' hne) hsi hsk
            have hcond2 := hcond.1
            omega
        · exact absurd he (by simp)
  | succ h ih =>
    intro pre n k v isRoot hwf hpre hsem
    obtain ⟨hh, s, slots, rfl⟩ := WFb_branch_shape hwf
    rw [WFb_succ_iff] at hwf
    obtain ⟨hocc, hslots⟩ := hwf
    rw [semNode_succ] at hsem
    cases hsl : slots (digit k (h + 1)) with
    | none =>
      rw [hsl] at hsem
      exact absurd (show (none : Option α) = some v from hsem) (by simp)
    | some c =>
      rw [hsl] at hsem
      have hsemc : semNode c k h = some v := hsem
      have hwfc := hslots _ (digit_lt k (h + 1)) c hsl
      have hprec : pref k (h + 1) = pre * 64 + digit k (h + 1) := pref_child hpre
      have hsome : (slots (digit k (h + 1))).isSome = true := by rw [hsl]; rfl
      have hih := ih _ c k v false hwfc hprec hsemc
      have hprek' : ∀ k', pref k' (h + 1 + 1) = pre → digit k' (h + 1) = digit k (h + 1) →
          pref k' (h + 1) = pre * 64 + digit k (h + 1) := by
        intro k' hp' hdig
        have := pref_child hp'
        rw [hdig] at this
        exact this
      constructor
      · intro n' he
        cases hec : eraseNode c k h false with
        | some c' =>
          obtain ⟨hwf', hsem', hpres'⟩ := hih.1 c' hec
          simp only [eraseNode, hsl, hec, Option.some.injEq] at he
          subst he
          refine ⟨?_, ?_, ?_⟩
          · refine WFb_succ_iff.mpr ⟨?_, ?_⟩
            · rw [occ_update_some_some hsome]
              exact hocc
            · intro i hi c'' hc''
              rcases eq_or_ne i (digit k (h + 1)) with rfl | hne
              · rw [Function.update_same, Option.some.injEq] at hc''
                subst hc''
                exact hwf'
              · rw [Function.update_noteq hne] at hc''
                exact hslots i hi c'' hc''
          · rw [semNode_succ, Function.update_same]
            exact hsem'
          · intro k' hp' hne
            rw [semNode_succ, semNode_succ]
            rcases eq_or_ne (digit k' (h + 1)) (digit k (h + 1)) with hdig | hdig
            · rw [hdig, Function.update_same, hsl]
              exact hpres' k' (hprek' k' hp' hdig) hne
            · rw [Function.update_noteq hdig]
        | none =>
          obtain ⟨-, hchild⟩ := hih.2 hec
          have hcond : ¬ (s = 0 ∧ isRoot = false) := by
            intro hc
            have h1 : 0 < occ slots := occ_pos (digit_lt k (h + 1)) hsome
            omega
          simp only [eraseNode, hsl, hec] at he
          rw [if_neg hcond, Option.some.injEq] at he
          subst he
          refine ⟨?_, ?_, ?_⟩
          · refine WFb_succ_iff.mpr ⟨?_, ?_⟩
            · have hdec := occ_update_some_none (digit_lt k (h + 1)) hsome
              omega
            · intro i hi c'' hc''
              rcases eq_or_ne i (digit k (h + 1)) with rfl | hne
              · rw [Function.update_same] at hc''
                exact absurd hc'' (by simp)
              · rw [Function.update_noteq hne] at hc''
                exact hslots i hi c'' hc''
          · rw [semNode_succ, Function.update_same]
          · intro k' hp' hne
            rw [semNode_succ, semNode_succ]
            rcases eq_or_ne (digit k' (h + 1)) (digit k (h + 1)) with hdig | hdig
            · rw [hdig, Function.update_same, hsl]
              exact (hchild k' (hprek' k' hp' hdig) hne).symm
            · rw [Function.update_noteq hdig]
      · intro he
        cases hec : eraseNode c k h false with
        | some c' =>
          simp only [eraseNode, hsl, hec] at he
          exact absurd he (by simp)
        | none =>
          have hcond : ¬ (s = 0 ∧ isRoot = false) := by
            intro hc
            have h1 : 0 < occ slots := occ_pos (digit_lt k (h + 1)) hsome
            omega
          simp only [eraseNode, hsl, hec] at he
          rw [if_neg hcond] at he
          exact absurd he (by simp)

/-- At the root (`isRoot = true`) the shrink walk never destroys the node. -/
theorem eraseNode_root_isSome {α : Type} {h pre : Nat} {n : RNode α} {k : Nat} {v : α}
    (hwf : WFb h pre n = true) (hpre : pref k (h + 1) = pre)
    (hsem : semNode n k h = some v) :
    ∃ n', eraseNode n k h true = some n' ∧
      WFb h pre n' = true ∧ semNode n' k h = none ∧
      ∀ k', pref k' (h + 1) = pre → k' ≠ k → semNode n' k' h = semNode n k' h := by
  have hspec := eraseNode_spec h pre n k v true hwf hpre hsem
  cases he : eraseNode n k h true with
  | none => exact absurd (hspec.2 he).1 (by simp)
  | some n' =>
    obtain ⟨h1, h2, h3⟩ := hspec.1 n' he
    exact ⟨n', rfl, h1, h2, h3⟩

/-! ### Association-list lemmas about `List.lookup` and `List.eraseP` -/

theorem lookup_cons_self {α : Type} (k : Nat) (v : α) (l : List (Nat × α)) :
    ((k, v) :: l).lookup k = some v := by
  simp [List.lookup]

theorem lookup_cons_ne {α : Type} {k k' : Nat} (v : α) (l : List (Nat × α))
    (hne : k' ≠ k) : ((k, v) :: l).lookup k' = l.lookup k' := by
  simp only [List.lookup, beq_eq_false_iff_ne.mpr hne]

theorem lookup_eq_none_iff {α : Type} {l : List (Nat × α)} {k : Nat} :
    l.lookup k = none ↔ k ∉ l.map Prod.fst := by
  induction l with
  | nil => simp [List.lookup]
  | cons p l ih =>
    obtain ⟨k', v'⟩ := p
    rcases eq_or_ne k k' with rfl | hne
    · simp [lookup_cons_self]
    · rw [lookup_cons_ne v' l hne, ih]
      simp [Ne.symm hne, hne]

theorem lookup_some_mem {α : Type} {l : List (Nat × α)} {k : Nat} {v : α}
    (h : l.lookup k = some v) : (k, v) ∈ l := by
  induction l with
  | nil => simp [List.lookup] at h
  | cons p l ih =>
    obtain ⟨k', v'⟩ := p
    rcases eq_or_ne k k' with rfl | hne
    · rw [lookup_cons_self, Option.some.injEq] at h
      subst h
      exact List.mem_cons_self _ _
    · rw [lookup_cons_ne v' l hne] at h
      exact List.mem_cons_of_mem _ (ih h)

theorem lookup_of_mem_nodup {α : Type} {l : List (Nat × α)} {k : Nat} {v : α}
    (hnd : (l.map Prod.fst).Nodup) (hmem : (k, v) ∈ l) : l.lookup k = some v := by
  induction l with
  | nil => simp at hmem
  | cons p l ih =>
    obtain ⟨k', v'⟩ := p
    rw [List.map_cons, List.nodup_cons] at hnd
    rcases List.mem_cons.mp hmem with heq | hmem'
    · rw [Prod.mk.injEq] at heq
      obtain ⟨rfl, rfl⟩ := heq
      exact lookup_cons_self k v l
    · have hne : k ≠ k' := by
        rintro rfl
        exact hnd.1 (List.mem_map.mpr ⟨(k, v), hmem', rfl⟩)
      rw [lookup_cons_ne v' l hne]
      exact ih hnd.2 hmem'

theorem lookup_append_none {α : Type} {l₁ : List (Nat × α)} (l₂ : List (Nat × α))
    {k : Nat} (h : l₁.lookup k = none) : (l₁ ++ l₂).lookup k = l₂.lookup k := by
  induction l₁ with
  | nil => simp
  | cons p l ih =>
    obtain ⟨k', v'⟩ := p
    rcases eq_or_ne k k' with rfl | hne
    · rw [lookup_cons_self] at h
      exact absurd h (by simp)
    · rw [lookup_cons_ne v' l hne] at h
      rw [List.cons_append, lookup_cons_ne v' (l ++ l₂) hne]
      exact ih h

theorem lookup_append_some {α : Type} {l₁ : List (Nat × α)} (l₂ : List (Nat × α))
    {k : Nat} {v : α} (h : l₁.lookup k = some v) : (l₁ ++ l₂).lookup k = some v := by
  induction l₁ with
  | nil => simp [List.lookup] at h
  | cons p l ih =>
    obtain ⟨k', v'⟩ := p
    rcases eq_or_ne k k' with rfl | hne
    · rw [lookup_cons_self] at h
      rw [List.cons_append, lookup_cons_self]
      exact h
    · rw [lookup_cons_ne v' l hne] at h
      rw [List.cons_append, lookup_cons_ne v' (l ++ l₂) hne]
      exact ih h

theorem lookup_singleton_self {α : Type} (k : Nat) (v : α) :
    ([(k, v)] : List (Nat × α)).lookup k = some v := lookup_cons_self k v []

theorem lookup_singleton_ne {α : Type} {k k' : Nat} (v : α) (hne : k' ≠ k) :
    ([(k, v)] : List (Nat × α)).lookup k' = none := by
  rw [lookup_cons_ne v [] hne]
  simp [List.lookup]

theorem lookup_eraseP_ne {α : Type} {l : List (Nat × α)} {k k' : Nat} (hne : k' ≠ k) :
    (l.eraseP (fun p => p.1 == k)).lookup k' = l.lookup k' := by
  induction l with
  | nil => rfl
  | cons p l ih =>
    obtain ⟨k₁, v₁⟩ := p
    rcases eq_or_ne k₁ k with rfl | hk₁
    · rw [List.eraseP_cons, show (((k₁, v₁).1 == k₁) = true) from beq_self_eq_true k₁]
      rw [lookup_cons_ne v₁ l (by exact hne)]
      rfl
    · rw [List.eraseP_cons, show (((k₁, v₁).1 == k) = false) from beq_eq_false_iff_ne.mpr hk₁]
      show ((k₁, v₁) :: l.eraseP (fun p => p.1 == k)).lookup k' = _
      rcases eq_or_ne k' k₁ with rfl | hne₁
      · rw [lookup_cons_self, lookup_cons_self]
      · rw [lookup_cons_ne v₁ _ hne₁, lookup_cons_ne v₁ l hne₁]
        exact ih

theorem lookup_eraseP_self {α : Type} {l : List (Nat × α)} {k : Nat}
    (hnd : (l.map Prod.fst).Nodup) :
    (l.eraseP (fun p => p.1 == k)).lookup k = none := by
  induction l with
  | nil => rfl
  | cons p l ih =>
    obtain ⟨k₁, v₁⟩ := p
    rw [List.map_cons, List.nodup_cons] at hnd
    rcases eq_or_ne k₁ k with rfl | hk₁
    · rw [List.eraseP_cons, show (((k₁, v₁).1 == k₁) = true) from beq_self_eq_true k₁]
      show l.lookup k₁ = none
      exact lookup_eq_none_iff.mpr hnd.1
    · rw [List.eraseP_cons, show (((k₁, v₁).1 == k) = false) from beq_eq_false_iff_ne.mpr hk₁]
      show ((k₁, v₁) :: l.eraseP (fun p => p.1 == k)).lookup k = none
      rw [lookup_cons_ne v₁ _ (Ne.symm hk₁)]
      exact ih hnd.2

theorem length_eraseP_lookup {α : Type} {l : List (Nat × α)} {k : Nat} {v : α}
    (h : l.lookup k = some v) :
    (l.eraseP (fun p => p.1 == k)).length + 1 = l.length := by
  induction l with
  | nil => simp [List.lookup] at h
  | cons p l ih =>
    obtain ⟨k₁, v₁⟩ := p
    rcases eq_or_ne k₁ k with rfl | hk₁
    · rw [List.eraseP_cons, show (((k₁, v₁).1 == k₁) = true) from beq_self_eq_true k₁]
      rfl
    · rw [List.eraseP_cons, show (((k₁, v₁).1 == k) = false) from beq_eq_false_iff_ne.mpr hk₁]
      rw [lookup_cons_ne v₁ l (Ne.symm hk₁)] at h
      show (l.eraseP (fun p => p.1 == k)).length + 1 + 1 = l.length + 1
      rw [ih h]

theorem eraseP_no_match {α : Type} {l : List (Nat × α)} {k : Nat}
    (h : l.lookup k = none) : l.eraseP (fun p => p.1 == k) = l := by
  refine List.eraseP_of_forall_not (fun p hp => ?_)
  rw [lookup_eq_none_iff] at h
  intro hbeq
  have : p.1 = k := by
    have := of_decide_eq_true (by exact hbeq)
    exact this
  exact h (List.mem_map.mpr ⟨p, hp, this⟩)

/-! ### Root growth: `extend` and the `growRoot` loop -/

theorem rt_extend_heightOf {α : Type} (r : RNode α) :
    (rt_extend r).heightOf = r.heightOf + 1 := rfl

theorem WFb_extend {α : Type} {r : RNode α} (hwf : WFb r.heightOf 0 r = true) :
    WFb (r.heightOf + 1) 0 (rt_extend r) = true := by
  show WFb (r.heightOf + 1) 0
    (RNode.branch (r.heightOf + 1) 1 (Function.update emptySlots 0 (some r))) = true
  refine WFb_succ_iff.mpr ⟨?_, ?_⟩
  · have hocc : occ (Function.update (emptySlots (α := α)) 0 (some r)) = 1 := by
      rw [occ_update_none_some (by norm_num) rfl]
      rfl
    omega
  · intro i hi c hc
    rcases eq_or_ne i 0 with rfl | hne
    · rw [Function.update_same, Option.some.injEq] at hc
      subst hc
      simpa using hwf
    · rw [Function.update_noteq hne] at hc
      exact absurd hc (by simp [emptySlots])

theorem semNode_extend {α : Type} (r : RNode α) (k : Nat) :
    semNode (rt_extend r) k (r.heightOf + 1) =
      if digit k (r.heightOf + 1) = 0 then semNode r k r.heightOf else none := by
  show semNode (RNode.branch (r.heightOf + 1) 1 (Function.update emptySlots 0 (some r)))
      k (r.heightOf + 1) = _
  rw [semNode_succ]
  rcases eq_or_ne (digit k (r.heightOf + 1)) 0 with hdig | hdig
  · rw [hdig, if_pos rfl, Function.update_same]
  · rw [if_neg hdig, Function.update_noteq hdig]
    rfl

theorem digit_top_ne_zero {k h : Nat} (hk1 : k ≤ max_index (h + 1))
    (hk2 : max_index h < k) : digit k (h + 1) ≠ 0 := by
  intro hdig
  have hp2 : pref k (h + 2) = 0 := pref_zero_of_le_max hk1
  have hd := pref_decomp k (h + 1)
  have hp1 : pref k (h + 1) = 0 := by
    have : pref k (h + 1 + 1) = 0 := hp2
    omega
  rw [pref_eq_zero_iff] at hp1
  rcases Nat.lt_or_ge h 10 with hlt | hge
  · have hpow : max_index h = 2 ^ (6 * (h + 1)) - 1 := max_index_eq_pow (by omega)
    have h64 : (64 : Nat) ^ (h + 1) = 2 ^ (6 * (h + 1)) := by
      rw [pow_mul]; norm_num
    omega
  · have h1 : max_index h = 2 ^ 64 - 1 := max_index_of_ten_le hge
    have h2 : max_index (h + 1) = 2 ^ 64 - 1 := max_index_of_ten_le (by omega)
    omega

theorem semRoot_extend {α : Type} (r : RNode α) (k : Nat) :
    semRoot (rt_extend r) k = semRoot r k := by
  unfold semRoot
  rw [rt_extend_heightOf]
  by_cases hk : max_index r.heightOf < k
  · rw [if_pos hk]
    by_cases hk1 : max_index (r.heightOf + 1) < k
    · rw [if_pos hk1]
    · rw [if_neg hk1, semNode_extend,
        if_neg (digit_top_ne_zero (by omega) hk)]
  · rw [if_neg hk]
    have hle : k ≤ max_index (r.heightOf + 1) :=
      le_trans (by omega) (max_index_mono (Nat.le_succ _))
    rw [if_neg (by omega), semNode_extend]
    have hdig : digit k (r.heightOf + 1) = 0 := by
      have hp : pref k (r.heightOf + 1) = 0 := pref_zero_of_le_max (by omega)
      rw [digit_eq_mod, hp]
    rw [if_pos hdig]

theorem growRoot_heightOf_le {α : Type} :
    ∀ (fuel : Nat) (r : RNode α) (k : Nat),
      r.heightOf ≤ (growRoot fuel r k).heightOf := by
  intro fuel
  induction fuel with
  | zero => intro r k; exact le_rfl
  | succ fuel ih =>
    intro r k
    unfold growRoot
    split
    · have := ih (rt_extend r) k
      rw [rt_extend_heightOf] at this
      omega
    · exact le_rfl

theorem growRoot_wf {α : Type} :
    ∀ (fuel : Nat) (r : RNode α) (k : Nat), WFb r.heightOf 0 r = true →
      WFb (growRoot fuel r k).heightOf 0 (growRoot fuel r k) = true := by
  intro fuel
  induction fuel with
  | zero => intro r k hwf; exact hwf
  | succ fuel ih =>
    intro r k hwf
    unfold growRoot
    split
    · exact ih (rt_extend r) k (WFb_extend hwf)
    · exact hwf

theorem growRoot_reaches {α : Type} :
    ∀ (fuel : Nat) (r : RNode α) (k : Nat), k < 2 ^ 64 → 10 ≤ r.heightOf + fuel →
      k ≤ max_index (growRoot fuel r k).heightOf := by
  intro fuel
  induction fuel with
  | zero =>
    intro r k hk hf
    have := max_index_of_ten_le (show 10 ≤ r.heightOf by omega)
    show k ≤ max_index r.heightOf
    omega
  | succ fuel ih =>
    intro r k hk hf
    unfold growRoot
    split
    · refine ih (rt_extend r) k hk ?_
      rw [rt_extend_heightOf]
      omega
    · rename_i hc
      omega

theorem semRoot_growRoot {α : Type} :
    ∀ (fuel : Nat) (r : RNode α) (k k' : Nat),
      semRoot (growRoot fuel r k) k' = semRoot r k' := by
  intro fuel
  induction fuel with
  | zero => intro r k k'; rfl
  | succ fuel ih =>
    intro r k k'
    unfold growRoot
    split
    · rw [ih (rt_extend r) k k', semRoot_extend]
    · rfl

theorem growRoot_noop {α : Type} (fuel : Nat) (r : RNode α) (k : Nat)
    (hk : ¬ max_index r.heightOf < k) : growRoot fuel r k = r := by
  cases fuel with
  | zero => rfl
  | succ fuel =>
    unfold growRoot
    rw [if_neg hk]

/-! ### Top-level `insert` -/

theorem rt_semFind_eq_semRoot {α : Type} (t : radix_tree α) (k : Nat) :
    rt_semFind t k = semRoot t.rt_root k := by
  unfold rt_semFind rt_find semRoot semNode
  by_cases hk : max_index t.rt_root.heightOf < k
  · rw [if_pos hk, if_pos hk]
  · rw [if_neg hk, if_neg hk]

theorem rt_insert_root {α : Type} (t : radix_tree α) (k : Nat) (v : α) :
    (rt_insert t k v).1.rt_root =
      (insertNode (growRoot 64 t.rt_root k) k v
        (growRoot 64 t.rt_root k).heightOf).1 := by
  cases hfl : (insertNode (growRoot 64 t.rt_root k) k v
      (growRoot 64 t.rt_root k).heightOf).2 with
  | true => simp [rt_insert, hfl]
  | false => simp [rt_insert, hfl]

theorem rt_insert_height_le {α : Type} (t : radix_tree α) (k : Nat) (v : α) :
    t.rt_root.heightOf ≤ (rt_insert t k v).1.rt_root.heightOf := by
  rw [rt_insert_root, insertNode_heightOf]
  exact growRoot_heightOf_le 64 t.rt_root k

/-- Inserting a key that is already present: no growth, no structural
change, `inserted? = false`, and the returned iterator is built from the
uninitialized local variable. -/
theorem rt_insert_existing {α : Type} {t : radix_tree α} {k : Nat} {v₀ : α} (w : α)
    (hinv : rt_inv t) (hsem : rt_semFind t k = some v₀) :
    rt_insert t k w = (t, InsIter.uninit, false) := by
  obtain ⟨hwf, hbound, hnd, hsize, hlook⟩ := hinv
  have hkle : k ≤ max_index t.rt_root.heightOf := by
    by_contra hgt
    rw [rt_semFind_eq_semRoot] at hsem
    unfold semRoot at hsem
    rw [if_pos (by omega)] at hsem
    exact absurd hsem (by simp)
  have hnoop : growRoot 64 t.rt_root k = t.rt_root := growRoot_noop 64 _ _ (by omega)
  have hsemn : semNode t.rt_root k t.rt_root.heightOf = some v₀ := by
    rw [rt_semFind_eq_semRoot] at hsem
    unfold semRoot at hsem
    rw [if_neg (by omega)] at hsem
    exact hsem
  have hpre : pref k (t.rt_root.heightOf + 1) = 0 := pref_zero_of_le_max hkle
  have hself := insertNode_self t.rt_root.heightOf 0 t.rt_root k w hwf hpre
  cases hflag : (insertNode t.rt_root k w t.rt_root.heightOf).2 with
  | true =>
    obtain ⟨hnone, -⟩ := hself.1 hflag
    rw [hsemn] at hnone
    exact absurd hnone (by simp)
  | false =>
    obtain ⟨hsame, -⟩ := hself.2 hflag
    have hred : rt_insert t k w =
        (⟨(insertNode t.rt_root k w t.rt_root.heightOf).1, t.head, t._size⟩,
          InsIter.uninit, false) := by
      simp [rt_insert, hnoop, hflag]
    rw [hred, hsame]

theorem lookup_append_single_ne {α : Type} {l : List (Nat × α)} {k k' : Nat} (v : α)
    (hne : k' ≠ k) : (l ++ [(k, v)]).lookup k' = l.lookup k' := by
  cases hl : l.lookup k' with
  | some v'' => exact lookup_append_some _ hl
  | none => rw [lookup_append_none _ hl, lookup_singleton_ne v hne]

/-- Inserting an absent representable key: the invariant is preserved, the
new pair is appended at the `end()` side of the order list, the counter is
incremented, and the fresh iterator/flag pair is returned. -/
theorem rt_insert_fresh {α : Type} {t : radix_tree α} {k : Nat} (v : α)
    (hk : k < 2 ^ 64) (hinv : rt_inv t) (habs : rt_semFind t k = none) :
    rt_inv (rt_insert t k v).1 ∧
    (rt_insert t k v).2 = (InsIter.node k, true) ∧
    (rt_insert t k v).1.head = t.head ++ [(k, v)] ∧
    (rt_insert t k v).1._size = t._size + 1 := by
  obtain ⟨hwf, hbound, hnd, hsize, hlook⟩ := hinv
  set g := growRoot 64 t.rt_root k with hg
  have hwfg : WFb g.heightOf 0 g = true := growRoot_wf 64 t.rt_root k hwf
  have hkle : k ≤ max_index g.heightOf := growRoot_reaches 64 t.rt_root k hk (by omega)
  have hpre : pref k (g.heightOf + 1) = 0 := pref_zero_of_le_max hkle
  have hsemg : ∀ k'', semRoot g k'' = rt_semFind t k'' := by
    intro k''
    rw [rt_semFind_eq_semRoot]
    exact semRoot_growRoot 64 t.rt_root k k''
  have hsemgk : semNode g k g.heightOf = none := by
    have hgk := hsemg k
    rw [habs] at hgk
    unfold semRoot at hgk
    rw [if_neg (by omega)] at hgk
    exact hgk
  have hself := insertNode_self g.heightOf 0 g k v hwfg hpre
  have hflag : (insertNode g k v g.heightOf).2 = true := by
    cases hfl : (insertNode g k v g.heightOf).2 with
    | true => rfl
    | false =>
      obtain ⟨-, v₀, hv₀⟩ := hself.2 hfl
      rw [hsemgk] at hv₀
      exact absurd hv₀ (by simp)
  obtain ⟨-, hafter⟩ := hself.1 hflag
  have hred : rt_insert t k v =
      (⟨(insertNode g k v g.heightOf).1, t.head ++ [(k, v)], t._size + 1⟩,
        InsIter.node k, true) := by
    simp [rt_insert, ← hg, hflag]
  have hh' : ((insertNode g k v g.heightOf).1).heightOf = g.heightOf :=
    insertNode_heightOf g k v g.heightOf
  have hwf' : WFb g.heightOf 0 (insertNode g k v g.heightOf).1 = true :=
    insertNode_wf g.heightOf 0 g k v hwfg hpre
  have hkabs : t.head.lookup k = none := by rw [← hlook k]; exact habs
  have hmono : max_index t.rt_root.heightOf ≤ max_index g.heightOf :=
    max_index_mono (growRoot_heightOf_le 64 t.rt_root k)
  refine ⟨?_, by rw [hred], by rw [hred], by rw [hred]⟩
  rw [hred]
  refine ⟨?_, ?_, ?_, ?_, ?_⟩
  · show WFb ((insertNode g k v g.heightOf).1).heightOf 0 (insertNode g k v g.heightOf).1
      = true
    rw [hh']
    exact hwf'
  · intro p hp
    show p.1 ≤ max_index ((insertNode g k v g.heightOf).1).heightOf
    rw [hh']
    rcases List.mem_append.mp hp with hmem | hmem
    · exact le_trans (hbound p hmem) hmono
    · rw [List.mem_singleton] at hmem
      subst hmem
      exact hkle
  · show ((t.head ++ [(k, v)]).map Prod.fst).Nodup
    rw [List.map_append]
    simp only [List.map_cons, List.map_nil]
    rw [List.nodup_append]
    refine ⟨hnd, List.nodup_singleton k, ?_⟩
    intro a ha hb
    rw [List.mem_singleton] at hb
    subst hb
    exact lookup_eq_none_iff.mp hkabs ha
  · show t._size + 1 = (t.head ++ [(k, v)]).length
    rw [List.length_append, hsize]
    rfl
  · intro k''
    show rt_semFind (⟨(insertNode g k v g.heightOf).1, t.head ++ [(k, v)],
      t._size + 1⟩ : radix_tree α) k'' = (t.head ++ [(k, v)]).lookup k''
    rw [rt_semFind_eq_semRoot]
    unfold semRoot
    show (if max_index ((insertNode g k v g.heightOf).1).heightOf < k'' then none
      else semNode (insertNode g k v g.heightOf).1 k''
        ((insertNode g k v g.heightOf).1).heightOf) = _
    rw [hh']
    rcases eq_or_ne k'' k with rfl | hne
    · rw [if_neg (by omega), hafter, lookup_append_none _ hkabs, lookup_singleton_self]
    · by_cases hlt : max_index g.heightOf < k''
      · rw [if_pos hlt]
        cases hl : (t.head ++ [(k, v)]).lookup k'' with
        | none => rfl
        | some v'' =>
          exfalso
          have hmem := lookup_some_mem hl
          rcases List.mem_append.mp hmem with hmem' | hmem'
          · have := hbound _ hmem'
            omega
          · rw [List.mem_singleton, Prod.mk.injEq] at hmem'
            exact hne hmem'.1
      · rw [if_neg hlt]
        have hpre'' : pref k'' (g.heightOf + 1) = 0 := pref_zero_of_le_max (by omega)
        rw [insertNode_other g.heightOf 0 g k k'' v hwfg hpre hpre'' hne]
        have hgk'' := hsemg k''
        unfold semRoot at hgk''
        rw [if_neg hlt] at hgk''
        rw [hgk'', hlook k'', lookup_append_single_ne v hne]

/-! ### Top-level `erase` -/

theorem rt_eraseIter_height {α : Type} (t : radix_tree α) (k : Nat) :
    (rt_eraseIter t k).rt_root.heightOf = t.rt_root.heightOf := by
  show ((eraseNode t.rt_root k t.rt_root.heightOf true).getD t.rt_root).heightOf = _
  cases he : eraseNode t.rt_root k t.rt_root.heightOf true with
  | none => rfl
  | some n' => exact eraseNode_heightOf _ _ _ _ _ he

theorem rt_erase_found_spec {α : Type} {t : radix_tree α} {k k₀ : Nat} {v : α}
    (hinv : rt_inv t) (hfind : rt_find t k = FindRes.found k₀ v) :
    k₀ = k ∧ rt_inv (rt_eraseIter t k) ∧
    (rt_eraseIter t k).head = t.head.eraseP (fun p => p.1 == k) ∧
    (rt_eraseIter t k)._size + 1 = t._size := by
  obtain ⟨hwf, hbound, hnd, hsize, hlook⟩ := hinv
  have hguard : ¬ max_index t.rt_root.heightOf < k := by
    intro hlt
    unfold rt_find at hfind
    rw [if_pos hlt] at hfind
    exact absurd hfind (by simp)
  have hfn : findNode t.rt_root k t.rt_root.heightOf = FindRes.found k₀ v := by
    unfold rt_find at hfind
    rw [if_neg hguard] at hfind
    exact hfind
  have hpre : pref k (t.rt_root.heightOf + 1) = 0 := pref_zero_of_le_max (by omega)
  have hk₀ : k₀ = k := findNode_found_key t.rt_root.heightOf 0 t.rt_root k k₀ v hwf hpre hfn
  have hsem : semNode t.rt_root k t.rt_root.heightOf = some v := by
    unfold semNode
    rw [hfn]
  obtain ⟨n', he, hwf', hsem', hpres'⟩ := eraseNode_root_isSome hwf hpre hsem
  have hh' : n'.heightOf = t.rt_root.heightOf :=
    eraseNode_heightOf t.rt_root.heightOf t.rt_root k true n' he
  have hroot : (rt_eraseIter t k).rt_root = n' := by
    show (eraseNode t.rt_root k t.rt_root.heightOf true).getD t.rt_root = n'
    rw [he]
    rfl
  have hlookk : t.head.lookup k = some v := by
    rw [← hlook k, rt_semFind_eq_semRoot]
    unfold semRoot
    rw [if_neg hguard]
    exact hsem
  have hlen : (t.head.eraseP (fun p => p.1 == k)).length + 1 = t.head.length :=
    length_eraseP_lookup hlookk
  refine ⟨hk₀, ⟨?_, ?_, ?_, ?_, ?_⟩, rfl, ?_⟩
  · rw [hroot, hh']
    exact hwf'
  · intro p hp
    rw [hroot, hh']
    exact hbound p ((List.eraseP_sublist t.head).subset hp)
  · exact List.Nodup.sublist ((List.eraseP_sublist t.head).map Prod.fst) hnd
  · show t._size - 1 = (t.head.eraseP (fun p => p.1 == k)).length
    omega
  · intro k''
    have hhead2 : (rt_eraseIter t k).head = t.head.eraseP (fun p => p.1 == k) := rfl
    rw [hhead2, rt_semFind_eq_semRoot]
    unfold semRoot
    rw [hroot, hh']
    show (if max_index t.rt_root.heightOf < k'' then none
      else semNode n' k'' t.rt_root.heightOf) = _
    rcases eq_or_ne k'' k with rfl | hne
    · rw [if_neg hguard, hsem', lookup_eraseP_self hnd]
    · by_cases hlt : max_index t.rt_root.heightOf < k''
      · rw [if_pos hlt]
        cases hl : (t.head.eraseP (fun p => p.1 == k)).lookup k'' with
        | none => rfl
        | some v'' =>
          exfalso
          have hmem := (List.eraseP_sublist t.head).subset (lookup_some_mem hl)
          have := hbound _ hmem
          omega
      · rw [if_neg hlt]
        have hpre'' : pref k'' (t.rt_root.heightOf + 1) = 0 :=
          pref_zero_of_le_max (by omega)
        rw [hpres' k'' hpre'' hne, lookup_eraseP_ne hne, ← hlook k'',
          rt_semFind_eq_semRoot]
        unfold semRoot
        rw [if_neg hlt]
  · show t._size - 1 + 1 = t._size
    have hpos := List.length_pos.mpr (List.ne_nil_of_mem (lookup_some_mem hlookk))
    omega

theorem rt_erase_key_spec {α : Type} {t : radix_tree α} {k : Nat} {t' : radix_tree α}
    {r : Nat} (hinv : rt_inv t) (he : rt_erase_key t k = some (t', r)) :
    rt_inv t' ∧ t'.head = t.head.eraseP (fun p => p.1 == k) ∧
    t'.rt_root.heightOf = t.rt_root.heightOf ∧
    (t.head.lookup k = none → t' = t ∧ r = 0) ∧
    (∀ v, t.head.lookup k = some v → r = 1 ∧ t'._size + 1 = t._size) := by
  cases hf : rt_find t k with
  | endIt =>
    have hnone : t.head.lookup k = none := by
      rw [← hinv.2.2.2.2 k]
      unfold rt_semFind
      rw [hf]
    simp only [rt_erase_key, hf, Option.some.injEq, Prod.mk.injEq] at he
    obtain ⟨rfl, rfl⟩ := he
    refine ⟨hinv, (eraseP_no_match hnone).symm, rfl, fun _ => ⟨rfl, rfl⟩, ?_⟩
    intro v hv
    rw [hnone] at hv
    exact absurd hv (by simp)
  | nullDeref => simp [rt_erase_key, hf] at he
  | confused => simp [rt_erase_key, hf] at he
  | found k₀ v =>
    obtain ⟨hk₀, hinv', hhead', hsize'⟩ := rt_erase_found_spec hinv hf
    have hlookk : t.head.lookup k = some v := by
      rw [← hinv.2.2.2.2 k]
      unfold rt_semFind
      rw [hf]
    simp only [rt_erase_key, hf, Option.some.injEq, Prod.mk.injEq] at he
    obtain ⟨rfl, rfl⟩ := he
    refine ⟨hinv', hhead', rt_eraseIter_height t k, ?_, ?_⟩
    · intro hnone
      rw [hnone] at hlookk
      exact absurd hlookk (by simp)
    · intro v' _
      exact ⟨rfl, hsize'⟩

/-! ### Trace invariants -/

theorem rt_inv_empty {α : Type} : rt_inv (rt_empty (α := α)) := by
  refine ⟨rfl, ?_, ?_, rfl, ?_⟩
  · intro p hp
    exact absurd hp (by simp [rt_empty])
  · simp [rt_empty]
  · intro k
    show rt_semFind (rt_empty (α := α)) k = ([] : List (Nat × α)).lookup k
    unfold rt_semFind rt_find
    by_cases hk : max_index (rt_empty (α := α)).rt_root.heightOf < k
    · rw [if_pos hk]
      rfl
    · rw [if_neg hk]
      rfl

theorem runOp_inv {α : Type} {t t' : radix_tree α} {op : Op α}
    (hinv : rt_inv t) (h : runOp t op = some t') :
    rt_inv t' ∧ t'.head = specOrderStep t.head op := by
  cases op with
  | ins k v =>
    simp only [runOp] at h
    split at h
    · rw [Option.some.injEq] at h
      subst h
      rename_i hk
      show rt_inv (rt_insert t k v).1 ∧ (rt_insert t k v).1.head =
        (if (t.head.lookup k).isSome then t.head else t.head ++ [(k, v)])
      cases hl : t.head.lookup k with
      | some v₀ =>
        have hsem : rt_semFind t k = some v₀ := by rw [hinv.2.2.2.2 k, hl]
        have hex := rt_insert_existing v hinv hsem
        rw [hex]
        exact ⟨hinv, rfl⟩
      | none =>
        have habs : rt_semFind t k = none := by rw [hinv.2.2.2.2 k, hl]
        obtain ⟨hinv', -, hhead', -⟩ := rt_insert_fresh v hk hinv habs
        rw [hhead']
        exact ⟨hinv', rfl⟩
    · exact absurd h (by simp)
  | del k =>
    simp only [runOp, Option.map_eq_some'] at h
    obtain ⟨⟨t'', r⟩, hkey, heq⟩ := h
    obtain ⟨hinv', hhead', -, -, -⟩ := rt_erase_key_spec hinv hkey
    rw [show t' = t'' from heq.symm]
    exact ⟨hinv', hhead'⟩

theorem runOp_height_le {α : Type} {t t' : radix_tree α} {op : Op α}
    (h : runOp t op = some t') : t.rt_root.heightOf ≤ t'.rt_root.heightOf := by
  cases op with
  | ins k v =>
    simp only [runOp] at h
    split at h
    · rw [Option.some.injEq] at h
      subst h
      exact rt_insert_height_le t k v
    · exact absurd h (by simp)
  | del k =>
    simp only [runOp, Option.map_eq_some'] at h
    obtain ⟨⟨t'', r⟩, hkey, heq⟩ := h
    subst heq
    cases hf : rt_find t k with
    | endIt =>
      simp only [rt_erase_key, hf, Option.some.injEq, Prod.mk.injEq] at hkey
      rw [← hkey.1]
    | nullDeref => simp [rt_erase_key, hf] at hkey
    | confused => simp [rt_erase_key, hf] at hkey
    | found k₀ v =>
      simp only [rt_erase_key, hf, Option.some.injEq, Prod.mk.injEq] at hkey
      rw [← hkey.1, rt_eraseIter_height]

theorem foldlM_runOp_inv {α : Type} :
    ∀ (ops : List (Op α)) (t : radix_tree α), rt_inv t →
      ∀ t', ops.foldlM runOp t = some t' →
        rt_inv t' ∧ t'.head = ops.foldl specOrderStep t.head ∧
        t.rt_root.heightOf ≤ t'.rt_root.heightOf := by
  intro ops
  induction ops with
  | nil =>
    intro t hinv t' h
    simp only [List.foldlM_nil] at h
    rw [show t' = t from by injection h with h2; exact h2.symm]
    exact ⟨hinv, rfl, le_rfl⟩
  | cons op ops ih =>
    intro t hinv t' h
    rw [List.foldlM_cons] at h
    cases ho : runOp t op with
    | none => rw [ho] at h; exact absurd h (by simp)
    | some t₁ =>
      rw [ho] at h
      obtain ⟨hinv₁, hhead₁⟩ := runOp_inv hinv ho
      have hh₁ := runOp_height_le ho
      obtain ⟨hinv', hhead', hh'⟩ := ih t₁ hinv₁ t' h
      refine ⟨hinv', ?_, le_trans hh₁ hh'⟩
      rw [List.foldl_cons, hhead', hhead₁]

theorem runTrace_inv {α : Type} {ops : List (Op α)} {t : radix_tree α}
    (h : runTrace ops = some t) : rt_inv t ∧ t.head = specOrder ops :=
  ⟨(foldlM_runOp_inv ops rt_empty rt_inv_empty t h).1,
    (foldlM_runOp_inv ops rt_empty rt_inv_empty t h).2.1⟩

theorem reachable_inv {α : Type} {t : radix_tree α} (h : Reachable t) : rt_inv t := by
  obtain ⟨ops, hops⟩ := h
  exact (runTrace_inv hops).1

theorem foldlM_runOp_height {α : Type} :
    ∀ (ops : List (Op α)) (t t' : radix_tree α), ops.foldlM runOp t = some t' →
      t.rt_root.heightOf ≤ t'.rt_root.heightOf := by
  intro ops
  induction ops with
  | nil =>
    intro t t' h
    simp only [List.foldlM_nil] at h
    rw [show t' = t from by injection h with h2; exact h2.symm]
  | cons op ops ih =>
    intro t t' h
    rw [List.foldlM_cons] at h
    cases ho : runOp t op with
    | none => rw [ho] at h; exact absurd h (by simp)
    | some t₁ =>
      rw [ho] at h
      exact le_trans (runOp_height_le ho) (ih t₁ t' h)

/-- A successful `find` is reported with the searched key itself. -/
theorem rt_find_found_of_sem {α : Type} {t : radix_tree α} {k : Nat} {v : α}
    (hinv : rt_inv t) (hsem : rt_semFind t k = some v) :
    rt_find t k = FindRes.found k v := by
  obtain ⟨hwf, -, -, -, -⟩ := hinv
  unfold rt_semFind at hsem
  cases hf : rt_find t k with
  | endIt => rw [hf] at hsem; exact absurd hsem (by simp)
  | nullDeref => rw [hf] at hsem; exact absurd hsem (by simp)
  | confused => rw [hf] at hsem; exact absurd hsem (by simp)
  | found k₀ v₀ =>
    rw [hf] at hsem
    rw [Option.some.injEq] at hsem
    have hguard : ¬ max_index t.rt_root.heightOf < k := by
      intro hlt
      unfold rt_find at hf
      rw [if_pos hlt] at hf
      exact absurd hf (by simp)
    have hfn : findNode t.rt_root k t.rt_root.heightOf = FindRes.found k₀ v₀ := by
      unfold rt_find at hf
      rw [if_neg hguard] at hf
      exact hf
    have hpre : pref k (t.rt_root.heightOf + 1) = 0 := pref_zero_of_le_max (by omega)
    have hk₀ : k₀ = k :=
      findNode_found_key t.rt_root.heightOf 0 t.rt_root k k₀ v₀ hwf hpre hfn
    rw [hk₀, hsem]

/-- Replaying a list of fresh, distinct, representable keys on top of a
well-formed tree appends them all to the order list. -/
theorem replay_spec {α : Type} :
    ∀ (l : List (Nat × α)) (t : radix_tree α), rt_inv t →
      (∀ p ∈ l, p.1 < 2 ^ 64) →
      ((t.head.map Prod.fst) ++ (l.map Prod.fst)).Nodup →
      rt_inv (l.foldl (fun acc p => (rt_insert acc p.1 p.2).1) t) ∧
      (l.foldl (fun acc p => (rt_insert acc p.1 p.2).1) t).head = t.head ++ l := by
  intro l
  induction l with
  | nil =>
    intro t hinv hrep hnd
    exact ⟨hinv, by simp⟩
  | cons p l ih =>
    intro t hinv hrep hnd
    obtain ⟨k, v⟩ := p
    rw [List.map_cons] at hnd
    have hdisj := (List.nodup_append.mp hnd).2.2
    have hkabs : t.head.lookup k = none := by
      rw [lookup_eq_none_iff]
      intro hmem
      exact hdisj hmem (List.mem_cons_self k _)
    have habs : rt_semFind t k = none := by
      rw [hinv.2.2.2.2 k]
      exact hkabs
    obtain ⟨hinv', -, hhead', -⟩ :=
      rt_insert_fresh v (hrep (k, v) (List.mem_cons_self _ _)) hinv habs
    rw [List.foldl_cons]
    have hnd' : (((rt_insert t k v).1.head.map Prod.fst) ++ (l.map Prod.fst)).Nodup := by
      rw [hhead', List.map_append]
      simp only [List.map_cons, List.map_nil]
      rw [List.append_assoc]
      exact hnd
    obtain ⟨hinvf, hheadf⟩ := ih (rt_insert t k v).1 hinv'
      (fun q hq => hrep q (List.mem_cons_of_mem _ hq)) hnd'
    refine ⟨hinvf, ?_⟩
    rw [hheadf, hhead', List.append_assoc]
    rfl

/-! ### Claims C1 to C10 -/

/-- C1: for every sequence of insertions of distinct keys (each
representable in the configured 64-bit integer width) into an initially
empty radix tree, and for every key of that sequence, `find(key)`
afterwards returns a non-end iterator whose dereferenced pair holds that
key and the value inserted with it, regardless of insertion order. -/
theorem C1_insert_find {α : Type} (l : List (Nat × α))
    (hdist : (l.map Prod.fst).Nodup) (hrep : ∀ p ∈ l, p.1 < 2 ^ 64) :
    ∀ p ∈ l,
      rt_find (l.foldl (fun acc q => (rt_insert acc q.1 q.2).1) rt_empty) p.1 =
        FindRes.found p.1 p.2 ∧
      rt_find (l.foldl (fun acc q => (rt_insert acc q.1 q.2).1) rt_empty) p.1 ≠
        FindRes.endIt := by
  intro p hp
  obtain ⟨hinv, hhead⟩ :=
    replay_spec l rt_empty rt_inv_empty hrep (by simpa using hdist)
  have hheadl :
      (l.foldl (fun acc q => (rt_insert acc q.1 q.2).1) rt_empty).head = l := by
    rw [hhead]
    rfl
  have hsem :
      rt_semFind (l.foldl (fun acc q => (rt_insert acc q.1 q.2).1) rt_empty) p.1 =
        some p.2 := by
    rw [hinv.2.2.2.2 p.1, hheadl]
    exact lookup_of_mem_nodup hdist hp
  have hfound := rt_find_found_of_sem hinv hsem
  exact ⟨hfound, by rw [hfound]; simp⟩

theorem C1_insert_find_witness :
    rt_find ([((70 : Nat), (1 : Nat)), (3, 2), (5000, 3)].foldl
        (fun acc q => (rt_insert acc q.1 q.2).1) rt_empty) 3 = FindRes.found 3 2 ∧
    rt_find ([((70 : Nat), (1 : Nat)), (3, 2), (5000, 3)].foldl
        (fun acc q => (rt_insert acc q.1 q.2).1) rt_empty) 3 ≠ FindRes.endIt :=
  C1_insert_find [(70, 1), (3, 2), (5000, 3)] (by decide) (by decide) (3, 2) (by decide)

/-- C2 (code bug): on an empty tree the key 5 is absent, yet `__find`
loads the empty final-level slot without a NULL check and returns the
pointer derived from a NULL `data_node`, which does not compare equal to
`end()`; `erase(5)` therefore does not return 0 but runs
`erase(iterator)` on that garbage pointer (undefined behavior, modelled as
`none`). -/
theorem C2_find_absent_bug :
    rt_semFind (rt_empty (α := Nat)) 5 = none ∧
    rt_find (rt_empty (α := Nat)) 5 = FindRes.nullDeref ∧
    (FindRes.nullDeref : FindRes Nat) ≠ FindRes.endIt ∧
    (rt_erase_key (rt_empty (α := Nat)) 5).isNone = true := by
  decide

/-- C3 (code bug): after inserting key 64 into an empty tree, the former
root survives as a reachable non-root branch node with occupancy 0; and
after then erasing key 64, the root's stored occupancy is 2 while only one
of its slots is occupied, because `shrink` clears the dead child's slot
without decrementing the parent's `size`. -/
theorem C3_occupancy_bug :
    (childAt ((rt_insert (rt_empty (α := Nat)) 64 7).1) 0).map RNode.isBranch =
      some true ∧
    (childAt ((rt_insert (rt_empty (α := Nat)) 64 7).1) 0).map RNode.storedSize =
      some 0 ∧
    (rt_erase_key ((rt_insert (rt_empty (α := Nat)) 64 7).1) 64).map
      (fun p => (rootStoredSize p.1, rootOcc p.1, p.2)) = some (2, 1, 1) := by
  decide

/-- C4 (code bug): a fresh insertion returns an iterator at the new data
node, but re-inserting an existing key returns `retval.first` built from
the *uninitialized* local variable `node` instead of an iterator at the
resident data node. -/
theorem C4_insert_iterator_bug :
    (rt_insert (rt_empty (α := Nat)) 0 10).2 = (InsIter.node 0, true) ∧
    (rt_insert ((rt_insert (rt_empty (α := Nat)) 0 10).1) 0 20).2 =
      (InsIter.uninit, false) := by
  decide

/-- C5: if key `k` is present with stored value `v`, then `insert (k, w)`
reports `inserted? = false` and returns the tree completely unchanged (same
trie, same order list, same counter), so the stored value for `k` is still
`v`. -/
theorem C5_reinsert_noop {α : Type} (t : radix_tree α) (k : Nat) (v w : α)
    (hreach : Reachable t) (hfound : rt_find t k = FindRes.found k v) :
    rt_insert t k w = (t, InsIter.uninit, false) ∧
    rt_find (rt_insert t k w).1 k = FindRes.found k v := by
  have hinv := reachable_inv hreach
  have hsem : rt_semFind t k = some v := by
    unfold rt_semFind
    rw [hfound]
  have hex := rt_insert_existing w hinv hsem
  exact ⟨hex, by rw [hex]; exact hfound⟩

theorem C5_reinsert_noop_witness :
    rt_insert ((rt_insert (rt_empty (α := Nat)) 3 10).1) 3 99 =
      ((rt_insert (rt_empty (α := Nat)) 3 10).1, InsIter.uninit, false) ∧
    rt_find (rt_insert ((rt_insert (rt_empty (α := Nat)) 3 10).1) 3 99).1 3 =
      FindRes.found 3 10 :=
  C5_reinsert_noop ((rt_insert (rt_empty (α := Nat)) 3 10).1) 3 10 99
    ⟨[Op.ins 3 10], rfl⟩ (by decide)

/-- C6: `erase(iterator)` unlinks the erased data node from the
insertion-order list and decrements the live-entry count; after erasing
the only key ever inserted, the tree is empty (`size() = 0` and
`begin() = end()`, i.e. an empty order list) while the root branch node
survives at its height. -/
theorem C6_erase_unlink {α : Type} :
    (∀ (t : radix_tree α) (k : Nat) (v : α), Reachable t →
        rt_find t k = FindRes.found k v →
        (rt_eraseIter t k)._size + 1 = t._size ∧
        (rt_eraseIter t k).head.length + 1 = t.head.length ∧
        k ∉ ((rt_eraseIter t k).head.map Prod.fst) ∧
        (∀ k', k' ≠ k →
          (rt_eraseIter t k).head.lookup k' = t.head.lookup k')) ∧
    (∀ (k : Nat) (v : α), k < 2 ^ 64 →
        rt_erase_key (rt_insert (rt_empty (α := α)) k v).1 k =
          some (rt_eraseIter (rt_insert (rt_empty (α := α)) k v).1 k, 1) ∧
        (rt_eraseIter (rt_insert (rt_empty (α := α)) k v).1 k)._size = 0 ∧
        (rt_eraseIter (rt_insert (rt_empty (α := α)) k v).1 k).head = [] ∧
        (rt_eraseIter (rt_insert (rt_empty (α := α)) k v).1 k).rt_root.heightOf =
          (rt_insert (rt_empty (α := α)) k v).1.rt_root.heightOf ∧
        (rt_eraseIter (rt_insert (rt_empty (α := α)) k v).1 k).rt_root.isBranch =
          true) := by
  constructor
  · intro t k v hreach hfound
    have hinv := reachable_inv hreach
    obtain ⟨-, hinv', hhead', hsize'⟩ := rt_erase_found_spec hinv hfound
    have hlookk : t.head.lookup k = some v := by
      rw [← hinv.2.2.2.2 k]
      unfold rt_semFind
      rw [hfound]
    refine ⟨hsize', ?_, ?_, ?_⟩
    · rw [hhead']
      exact length_eraseP_lookup hlookk
    · rw [hhead', ← lookup_eq_none_iff]
      exact lookup_eraseP_self hinv.2.2.1
    · intro k' hne
      rw [hhead']
      exact lookup_eraseP_ne hne
  · intro k v hk
    have habs : rt_semFind (rt_empty (α := α)) k = none := by
      rw [(rt_inv_empty (α := α)).2.2.2.2 k]
      rfl
    obtain ⟨hinv1, -, hhead1, hsize1⟩ := rt_insert_fresh v hk rt_inv_empty habs
    have hhead1' : (rt_insert (rt_empty (α := α)) k v).1.head = [(k, v)] := by
      rw [hhead1]
      rfl
    have hsem1 : rt_semFind (rt_insert (rt_empty (α := α)) k v).1 k = some v := by
      rw [hinv1.2.2.2.2 k, hhead1', lookup_singleton_self]
    have hfound1 := rt_find_found_of_sem hinv1 hsem1
    obtain ⟨-, hinv2, hhead2, hsize2⟩ := rt_erase_found_spec hinv1 hfound1
    refine ⟨?_, ?_, ?_, rt_eraseIter_height _ k, ?_⟩
    · unfold rt_erase_key
      rw [hfound1]
    · have h0 : (rt_empty (α := α))._size = 0 := rfl
      omega
    · rw [hhead2, hhead1']
      simp [List.eraseP_cons]
    · obtain ⟨hh2, s2, sl2, hshape⟩ := WFb_branch_shape hinv2.1
      rw [hshape]
      rfl

theorem C6_erase_unlink_witness :
    ((rt_eraseIter ((rt_insert (rt_empty (α := Nat)) 7 42).1) 7)._size + 1 =
      ((rt_insert (rt_empty (α := Nat)) 7 42).1)._size) ∧
    ((rt_eraseIter ((rt_insert (rt_empty (α := Nat)) 7 42).1) 7).head.lookup 0 =
      ((rt_insert (rt_empty (α := Nat)) 7 42).1).head.lookup 0) ∧
    ((rt_eraseIter ((rt_insert (rt_empty (α := Nat)) 7 42).1) 7)._size = 0 ∧
      (rt_eraseIter ((rt_insert (rt_empty (α := Nat)) 7 42).1) 7).head = []) := by
  have h1 := (C6_erase_unlink (α := Nat)).1 ((rt_insert (rt_empty (α := Nat)) 7 42).1)
    7 42 ⟨[Op.ins 7 42], rfl⟩ (by decide)
  have h2 := (C6_erase_unlink (α := Nat)).2 7 42 (by decide)
  exact ⟨h1.1, h1.2.2.2 0 (by decide), h2.2.1, h2.2.2.1⟩

/-- C7: across the lifetime of a tree instance the root's height never
decreases: whatever trace produced the current tree, running any further
operations (insertions, which may extend the root several levels for one
large key, and erasures, including ones that remove every entry stored
under large keys) never yields a tree of smaller root height. -/
theorem C7_height_monotone {α : Type} (ops more : List (Op α)) (t t' : radix_tree α)
    (h1 : runTrace ops = some t) (h2 : runTrace (ops ++ more) = some t') :
    t.rt_root.heightOf ≤ t'.rt_root.heightOf := by
  unfold runTrace at h1 h2
  rw [List.foldlM_append, h1] at h2
  exact foldlM_runOp_height more t t' h2

theorem C7_height_monotone_witness :
    ((rt_insert (rt_empty (α := Nat)) 4096 0).1).rt_root.heightOf ≤
      (rt_eraseIter ((rt_insert (rt_empty (α := Nat)) 4096 0).1) 4096).rt_root.heightOf :=
  C7_height_monotone [Op.ins 4096 0] [Op.del 4096]
    ((rt_insert (rt_empty (α := Nat)) 4096 0).1)
    (rt_eraseIter ((rt_insert (rt_empty (α := Nat)) 4096 0).1) 4096) rfl rfl

/-- C8 counterexample: after the trace insert 1, insert 2, erase 1,
insert 1, iteration visits the keys as `[2, 1]` (re-insertion order),
while the claim's "the exact order their keys were first inserted"
predicts `[1, 2]`. -/
theorem C8_first_insertion_order_cex :
    (runTrace ([Op.ins 1 10, Op.ins 2 20, Op.del 1, Op.ins 1 30] : List (Op Nat))).map
        (fun t => t.head.map Prod.fst) = some [2, 1] ∧
    (runTrace ([Op.ins 1 10, Op.ins 2 20, Op.del 1, Op.ins 1 30] : List (Op Nat))).map
        (fun t => claimC8Keys [Op.ins 1 10, Op.ins 2 20, Op.del 1, Op.ins 1 30] t) =
      some [1, 2] ∧
    ([2, 1] : List Nat) ≠ [1, 2] := by
  decide

/-- C8 (amended): iterating from `begin()` to `end()` visits exactly the
live entries, in the order their *current* data nodes were inserted (a key
that is erased and later re-inserted is ordered by its re-insertion): the
order list equals the specification replay of the trace, its keys are
distinct, and membership in it coincides with a successful `find`. -/
theorem C8_order_list_spec {α : Type} (ops : List (Op α)) (t : radix_tree α)
    (h : runTrace ops = some t) :
    t.head = specOrder ops ∧ (t.head.map Prod.fst).Nodup ∧
    ∀ k v, rt_find t k = FindRes.found k v ↔ (k, v) ∈ t.head := by
  obtain ⟨hinv, hhead⟩ := runTrace_inv h
  refine ⟨hhead, hinv.2.2.1, fun k v => ⟨?_, ?_⟩⟩
  · intro hf
    have hsem : rt_semFind t k = some v := by
      unfold rt_semFind
      rw [hf]
    rw [hinv.2.2.2.2 k] at hsem
    exact lookup_some_mem hsem
  · intro hmem
    refine rt_find_found_of_sem hinv ?_
    rw [hinv.2.2.2.2 k]
    exact lookup_of_mem_nodup hinv.2.2.1 hmem

theorem C8_order_list_spec_witness :
    ((rt_insert (rt_empty (α := Nat)) 5 1).1).head = specOrder [Op.ins 5 1] ∧
    ((((rt_insert (rt_empty (α := Nat)) 5 1).1).head).map Prod.fst).Nodup ∧
    (rt_find ((rt_insert (rt_empty (α := Nat)) 5 1).1) 5 = FindRes.found 5 1 ↔
      ((5 : Nat), (1 : Nat)) ∈ ((rt_insert (rt_empty (α := Nat)) 5 1).1).head) := by
  have h := C8_order_list_spec [Op.ins 5 1] ((rt_insert (rt_empty (α := Nat)) 5 1).1) rfl
  exact ⟨h.1, h.2.1, h.2.2 5 1⟩

/-- C9: copy construction (an insert-replay of the source's order list
into a default-constructed tree) yields a tree with the same `size()` and
the identical key-to-value mapping: every key present in the source is
found in the copy with the same value, and every absent key stays
absent. -/
theorem C9_copy_preserves_map {α : Type} (t : radix_tree α) (h : Reachable t) :
    (rt_copy t)._size = t._size ∧
    (∀ k, rt_semFind (rt_copy t) k = rt_semFind t k) ∧
    (∀ k v, rt_find (rt_copy t) k = FindRes.found k v ↔
      rt_find t k = FindRes.found k v) := by
  have hinv := reachable_inv h
  have hrep : ∀ p ∈ t.head, p.1 < 2 ^ 64 := by
    intro p hp
    have hb := hinv.2.1 p hp
    have hm := max_index_lt t.rt_root.heightOf
    omega
  have hnd0 :
      ((((rt_empty (α := α)).head).map Prod.fst) ++ (t.head.map Prod.fst)).Nodup := by
    simpa using hinv.2.2.1
  obtain ⟨hinvc, hheadc⟩ := replay_spec t.head rt_empty rt_inv_empty hrep hnd0
  have hinvc' : rt_inv (rt_copy t) := hinvc
  have hheadc' : (rt_copy t).head = t.head := by
    show (t.head.foldl (fun acc p => (rt_insert acc p.1 p.2).1) rt_empty).head = t.head
    rw [hheadc]
    rfl
  have hsemeq : ∀ k, rt_semFind (rt_copy t) k = rt_semFind t k := by
    intro k
    rw [hinvc'.2.2.2.2 k, hheadc', hinv.2.2.2.2 k]
  refine ⟨?_, hsemeq, fun k v => ⟨?_, ?_⟩⟩
  · rw [hinvc'.2.2.2.1, hheadc', hinv.2.2.2.1]
  · intro hf
    refine rt_find_found_of_sem hinv ?_
    rw [← hsemeq k]
    unfold rt_semFind
    rw [hf]
  · intro hf
    refine rt_find_found_of_sem hinvc' ?_
    rw [hsemeq k]
    unfold rt_semFind
    rw [hf]

theorem C9_copy_preserves_map_witness :
    (rt_copy ((rt_insert (rt_empty (α := Nat)) 9 3).1))._size =
      ((rt_insert (rt_empty (α := Nat)) 9 3).1)._size ∧
    rt_semFind (rt_copy ((rt_insert (rt_empty (α := Nat)) 9 3).1)) 9 =
      rt_semFind ((rt_insert (rt_empty (α := Nat)) 9 3).1) 9 := by
  have h := C9_copy_preserves_map ((rt_insert (rt_empty (α := Nat)) 9 3).1)
    ⟨[Op.ins 9 3], rfl⟩
  exact ⟨h.1, h.2.1 9⟩

/-- C10 counterexample: on an empty radix tree the key 5 is absent, yet
`operator[]` does not dereference an end/sentinel-derived position: `find`
returns the NULL-derived pointer, which is distinct from `end()`. -/
theorem C10_end_derived_cex :
    rt_semFind (rt_empty (α := Nat)) 5 = none ∧
    rt_find (rt_empty (α := Nat)) 5 = FindRes.nullDeref ∧
    (FindRes.nullDeref : FindRes Nat) ≠ FindRes.endIt := by
  decide

/-- C10 (amended): `operator[]` on both containers never inserts an entry
for an absent key: it dereferences the result of `find(key)`, the
structure is returned unchanged, and for an absent key the produced
reference is derived from the end sentinel or (radix tree) from a NULL
data-node pointer — in either case not backed by any stored entry. -/
theorem C10_opIndex_no_insert {α : Type} :
    (∀ (t : radix_tree α) (k : Nat), rt_semFind t k = none →
        rt_opIndex t k = (t, DerefRes.notBacked)) ∧
    (∀ (κ : Type) (inst : DecidableEq κ) (hash : κ → Nat) (m : hashmap κ α) (k : κ),
        @hm_find κ α inst hash m k = HFindRes.endIt →
        @hm_opIndex κ α inst hash m k = (m, DerefRes.notBacked)) := by
  constructor
  · intro t k hsem
    unfold rt_opIndex
    unfold rt_semFind at hsem
    cases hf : rt_find t k with
    | found k₀ v =>
      rw [hf] at hsem
      exact absurd hsem (by simp)
    | endIt => rfl
    | nullDeref => rfl
    | confused => rfl
  · intro κ inst hash m k hf
    unfold hm_opIndex
    rw [hf]

theorem C10_opIndex_no_insert_witness :
    rt_opIndex (rt_empty (α := Nat)) 5 = (rt_empty (α := Nat), DerefRes.notBacked) ∧
    hm_opIndex (fun n => n) (⟨4096, fun _ => [], []⟩ : hashmap Nat Nat) 3 =
      (⟨4096, fun _ => [], []⟩, DerefRes.notBacked) :=
  ⟨(C10_opIndex_no_insert (α := Nat)).1 rt_empty 5 (by decide),
    (C10_opIndex_no_insert (α := Nat)).2 Nat instDecidableEqNat (fun n => n)
      ⟨4096, fun _ => [], []⟩ 3 rfl⟩

end li
